import Mathlib

/-!
MapReduce master and worker (`src/mr/master.go`, `src/mr/rpc.go`,
`src/mr/worker.go`)

A shallow embedding of the master's task table and of the RPC handler
`Master.Dispatch`, together with `Master.Done` and `MakeMaster`, and of the
worker: `ihash`, the map and reduce cases of the loop in `Call`, and the
loop itself run against the master.

* Go slices are Lean lists; a slice access `s[i]` with an `int` index is
  modelled by `getIdx` / `setIdx`, which return `none` exactly when Go panics
  with an index-out-of-range error.
* Go `int` values are `Int` (no arithmetic is performed on them besides
  counting list positions, so no overflow is involved).
* `Dispatch` receives the master, the request and the response value the
  handler is going to fill in; it returns `none` when the handler panics and
  otherwise the new master, the filled-in response and the returned `error`
  (which is always `nil`).  The mutex `Lock`/`Unlock` pair brackets the whole
  body of every branch, so one call is one atomic step.
* The worker's collaborators (the application's map and reduce functions,
  `sort.Sort`, the outcome of every file operation) are the fields of
  `WorkerEnv`; the file operations a pass of the loop performs are recorded as
  a list of `FsOp`.
* Loops whose number of passes is not a syntactic bound take that bound as a
  first argument; the theorems supply a bound that suffices.
-/

namespace MR

/-! ## rpc.go -/

/-- Go: `type phaseType string`. -/
abbrev phaseType := String

def regPhase : phaseType := "Register"
def mapPhase : phaseType := "Map"
def reducePhase : phaseType := "Reduce"
def waitPhase : phaseType := "Waiting"
def donePhase : phaseType := "Done"

/-- Go: `type Request struct { Phase phaseType; FileIndex int }`. -/
structure Request where
  Phase : phaseType
  FileIndex : Int
  deriving DecidableEq, Repr

/-- Go: `type Response struct { Phase; FileName; FileIndex string; NReduce; NFile int }`. -/
structure Response where
  Phase : phaseType
  FileName : String
  FileIndex : String
  NReduce : Int
  NFile : Int
  deriving DecidableEq, Repr

/-- The zero value `Response{}`. -/
def Response.zero : Response :=
  { Phase := "", FileName := "", FileIndex := "", NReduce := 0, NFile := 0 }

/-! ## master.go -/

/-- Go: `type Master struct { ... }` (the embedded mutex carries no data). -/
structure Master where
  NFile : Int
  NReduce : Int
  Files : List String
  MappingFiles : List Bool
  MappedFiles : List Bool
  ReducingFiles : List Bool
  ReducedFiles : List Bool
  Timeout : Bool
  deriving DecidableEq, Repr

/-- Go's returned `error`; `none` is `nil`. -/
abbrev GoError := Option String

/-- The function `strconv.Itoa`: the decimal string of an `int`. -/
def Itoa (n : Int) : String :=
  match n with
  | Int.ofNat k => Nat.repr k
  | Int.negSucc k => "-" ++ Nat.repr (k + 1)

/-- Slice read `s[i]`; `none` is the index-out-of-range panic. -/
def getIdx {α : Type} (s : List α) (i : Int) : Option α :=
  if 0 ≤ i then s[i.toNat]? else none

/-- Slice write `s[i] = v`; `none` is the index-out-of-range panic. -/
def setIdx {α : Type} (s : List α) (i : Int) (v : α) : Option (List α) :=
  if 0 ≤ i ∧ i.toNat < s.length then some (s.set i.toNat v) else none

/-- The scanning loop
`for i, v := range s { if !v { isAll = false; index = i; break } }`,
started at position `i` with `isAll = true`, `index = -1`. -/
def scanFrom : List Bool → Nat → Bool × Int
  | [], _ => (true, -1)
  | v :: vs, i => if !v then (false, (i : Int)) else scanFrom vs (i + 1)

/-- The scanning loop over a whole slice: `(isAll, index)`. -/
def scan (s : List Bool) : Bool × Int := scanFrom s 0

/-- The `"Register", "Waiting"` branch of `Dispatch`. -/
def dispatchPoll (m : Master) (response : Response) : Option (Master × Response) :=
  let (isAllMapping, mappingIndex) := scan m.MappingFiles
  let (isAllMapped, mappedIndex) := scan m.MappedFiles
  let (isAllReducing, reducingIndex) := scan m.ReducingFiles
  let (isAllReduced, reducedIndex) := scan m.ReducedFiles
  if !isAllMapping then
    -- case 0
    (setIdx m.MappingFiles mappingIndex true).bind fun mapping =>
    (getIdx m.Files mappingIndex).bind fun name =>
    some ({ m with MappingFiles := mapping },
          { response with Phase := mapPhase, FileIndex := Itoa mappingIndex, FileName := name,
                          NReduce := m.NReduce, NFile := m.NFile })
  else if isAllMapping && !isAllMapped then
    -- case 1
    if !m.Timeout then
      some ({ m with Timeout := true },
            { response with Phase := waitPhase, FileIndex := Itoa (-1), FileName := "",
                            NReduce := -1 })
    else
      (getIdx m.Files mappedIndex).bind fun name =>
      some ({ m with Timeout := false },
            { response with Phase := mapPhase, FileIndex := Itoa mappedIndex, FileName := name,
                            NReduce := m.NReduce, NFile := m.NFile })
  else if isAllMapped && !isAllReducing then
    -- case 2
    some (m,
          { response with Phase := reducePhase, FileIndex := Itoa reducingIndex, FileName := "",
                          NReduce := m.NReduce, NFile := m.NFile })
  else if isAllReducing && !isAllReduced then
    -- case 3
    if !m.Timeout then
      some ({ m with Timeout := true },
            { response with Phase := waitPhase, FileIndex := Itoa (-1), FileName := "",
                            NReduce := -1, NFile := -1 })
    else
      some ({ m with Timeout := false },
            { response with Phase := reducePhase, FileIndex := Itoa reducedIndex, FileName := "",
                            NReduce := m.NReduce, NFile := m.NFile })
  else if isAllReduced then
    -- case 4
    some (m,
          { response with Phase := "Done", FileIndex := Itoa (-1), FileName := "",
                          NReduce := -1, NFile := -1 })
  else
    some (m, response)

/-- The `mapPhase` branch of `Dispatch` (a worker reports a finished map task). -/
def dispatchMap (m : Master) (request : Request) (response : Response) :
    Option (Master × Response) :=
  (setIdx m.MappedFiles request.FileIndex true).bind fun mapped =>
  let m : Master := { m with MappedFiles := mapped }
  let (isAllMapping, mappingIndex) := scan m.MappingFiles
  let (isAllMapped, mappedIndex) := scan m.MappedFiles
  let (isAllReducing, reducingIndex) := scan m.ReducingFiles
  if !isAllMapping then
    -- case 0
    (setIdx m.MappingFiles mappingIndex true).bind fun mapping =>
    (getIdx m.Files mappingIndex).bind fun name =>
    some ({ m with MappingFiles := mapping },
          { response with Phase := mapPhase, FileIndex := Itoa mappingIndex, FileName := name,
                          NReduce := m.NReduce, NFile := m.NFile })
  else if isAllMapping && !isAllMapped then
    -- case 1
    if !m.Timeout then
      some ({ m with Timeout := true },
            { response with Phase := waitPhase, FileIndex := Itoa (-1), FileName := "",
                            NReduce := -1, NFile := -1 })
    else
      (getIdx m.Files mappedIndex).bind fun name =>
      some ({ m with Timeout := false },
            { response with Phase := mapPhase, FileIndex := Itoa mappedIndex, FileName := name,
                            NReduce := m.NReduce, NFile := m.NFile })
  else if isAllMapped && !isAllReducing then
    -- case 2
    (setIdx m.ReducingFiles reducingIndex true).bind fun reducing =>
    some ({ m with ReducingFiles := reducing },
          { response with Phase := reducePhase, FileIndex := Itoa reducingIndex, FileName := "",
                          NReduce := m.NReduce, NFile := m.NFile })
  else
    some (m, response)

/-- The `reducePhase` branch of `Dispatch` (a worker reports a finished reduce task). -/
def dispatchReduce (m : Master) (request : Request) (response : Response) :
    Option (Master × Response) :=
  (setIdx m.ReducedFiles request.FileIndex true).bind fun reduced =>
  let m : Master := { m with ReducedFiles := reduced }
  let (isAllMapped, _) := scan m.MappedFiles
  let (isAllReducing, reducingIndex) := scan m.ReducingFiles
  let (isAllReduced, reducedIndex) := scan m.ReducedFiles
  if isAllMapped && !isAllReducing then
    -- case 2
    (setIdx m.ReducingFiles reducingIndex true).bind fun reducing =>
    some ({ m with ReducingFiles := reducing },
          { response with Phase := reducePhase, FileIndex := Itoa reducingIndex, FileName := "",
                          NReduce := m.NReduce, NFile := m.NFile })
  else if isAllReducing && !isAllReduced then
    -- case 3
    if !m.Timeout then
      some ({ m with Timeout := true },
            { response with Phase := waitPhase, FileName := "", FileIndex := Itoa (-1),
                            NReduce := -1, NFile := -1 })
    else
      some ({ m with Timeout := false },
            { response with Phase := reducePhase, FileName := "", FileIndex := Itoa reducedIndex,
                            NReduce := m.NReduce, NFile := m.NFile })
  else if isAllReduced then
    -- case 4
    some (m,
          { response with Phase := "Done", FileName := "", FileIndex := Itoa (-1),
                          NReduce := -1 })
  else
    some (m, response)

/-- Go: `func (m *Master) Dispatch(request *Request, response *Response) error`.
`none` is a run-time panic; otherwise the master and the response after the
call and the returned error, which is `nil` on every path. -/
def Dispatch (m : Master) (request : Request) (response : Response) :
    Option (Master × Response × GoError) :=
  if request.Phase = "Register" ∨ request.Phase = "Waiting" then
    (dispatchPoll m response).map fun r => (r.1, r.2, none)
  else if request.Phase = mapPhase then
    (dispatchMap m request response).map fun r => (r.1, r.2, none)
  else if request.Phase = reducePhase then
    (dispatchReduce m request response).map fun r => (r.1, r.2, none)
  else
    some (m, response, none)

/-- Go: `func (m *Master) Done() bool`.  The receiver is a pointer, so the
master after the call is returned next to the result. -/
def Done (m : Master) : Master × Bool :=
  (m, (scan m.ReducedFiles).1)

/-- Go: `func MakeMaster(files []string, nReduce int) *Master`, without the
call that starts the RPC server.  `make([]bool, nReduce)` panics for a
negative `nReduce`. -/
def MakeMaster (files : List String) (nReduce : Int) : Option Master :=
  if nReduce < 0 then none
  else
    let n := files.length
    some { NFile := (n : Int)
           NReduce := nReduce
           Files := files
           MappingFiles := List.replicate n false
           MappedFiles := List.replicate n false
           ReducingFiles := List.replicate nReduce.toNat false
           ReducedFiles := List.replicate nReduce.toNat false
           Timeout := false }

/-! ## Structural well-formedness and reachability -/

/-- The three map-side slices have the length recorded in `NFile`. -/
def MapWellFormed (m : Master) : Prop :=
  (m.Files.length : Int) = m.NFile ∧ (m.MappingFiles.length : Int) = m.NFile ∧
    (m.MappedFiles.length : Int) = m.NFile

/-- Both reduce-side slices have the length recorded in `NReduce`. -/
def ReduceWellFormed (m : Master) : Prop :=
  (m.ReducingFiles.length : Int) = m.NReduce ∧ (m.ReducedFiles.length : Int) = m.NReduce

/-- The shape `MakeMaster` establishes. -/
def WellFormed (m : Master) : Prop := MapWellFormed m ∧ ReduceWellFormed m

/-- Every entry of a flag slice is `true`. -/
def AllTrue (s : List Bool) : Prop := ∀ b ∈ s, b = true

/-- Index `i` is the least position of `s` holding `false`. -/
def LeastFalse (s : List Bool) (i : Nat) : Prop :=
  s[i]? = some false ∧ ∀ j, j < i → s[j]? = some true

/-- A report request carries an index inside the slice it writes to; polls
carry no constraint. -/
def InRange (m : Master) (request : Request) : Prop :=
  (request.Phase = mapPhase → 0 ≤ request.FileIndex ∧ request.FileIndex < m.NFile) ∧
  (request.Phase = reducePhase → 0 ≤ request.FileIndex ∧ request.FileIndex < m.NReduce)

/-- The master states that can arise: the one `MakeMaster` builds, and any
state a returning `Dispatch` call leaves behind, for arbitrary requests. -/
inductive Reachable : Master → Prop
  | make (files : List String) (nReduce : Int) (m : Master) :
      MakeMaster files nReduce = some m → Reachable m
  | step (m m' : Master) (request : Request) (response response' : Response) (e : GoError) :
      Reachable m → Dispatch m request response = some (m', response', e) → Reachable m'

/-- Feed a list of requests to the master one after the other, each with a
fresh zero-valued response (as the RPC server does); the responses are
collected in order. -/
def runRequests : Master → List Request → Option (Master × List Response)
  | m, [] => some (m, [])
  | m, q :: qs =>
    (Dispatch m q Response.zero).bind fun out =>
    (runRequests out.1 qs).map fun rest => (rest.1, out.2.1 :: rest.2)

/-- A flag slice `s'` arises from `s` by setting entries to `true` only. -/
structure Grows (s s' : List Bool) : Prop where
  length_eq : s'.length = s.length
  mono : ∀ j : Nat, s[j]? = some true → s'[j]? = some true

/-- A reduce task is marked assigned only once every map task is completed. -/
def ReduceAfterMap (m : Master) : Prop :=
  (∃ b ∈ m.ReducingFiles, b = true) → AllTrue m.MappedFiles

/-! ## Concrete task tables used as test points -/

/-- The master `MakeMaster ["a"] 2` builds: one input file, two reduce tasks. -/
def freshOneTwo : Master :=
  { NFile := 1, NReduce := 2, Files := ["a"], MappingFiles := [false], MappedFiles := [false],
    ReducingFiles := [false, false], ReducedFiles := [false, false], Timeout := false }

/-- The master `freshOneTwo` after one worker registered and reported map task 0: the
map is completed, reduce task 0 is assigned, reduce task 1 is idle. -/
def oneReduceIdle : Master :=
  { NFile := 1, NReduce := 2, Files := ["a"], MappingFiles := [true], MappedFiles := [true],
    ReducingFiles := [true, false], ReducedFiles := [false, false], Timeout := false }

/-- A table no run produces: both reduce tasks are marked assigned although
the only map task is not completed, and the timeout flag is set. -/
def unmappedAllReducing : Master :=
  { NFile := 1, NReduce := 2, Files := ["a"], MappingFiles := [true], MappedFiles := [false],
    ReducingFiles := [true, true], ReducedFiles := [false, false], Timeout := true }

/-- One input file, one reduce task, everything assigned and completed. -/
def allDoneOneOne : Master :=
  { NFile := 1, NReduce := 1, Files := ["a"], MappingFiles := [true], MappedFiles := [true],
    ReducingFiles := [true], ReducedFiles := [true], Timeout := false }

/-- The master `MakeMaster ["a"] 1` builds: one input file, one reduce task. -/
def freshOneOne : Master :=
  { NFile := 1, NReduce := 1, Files := ["a"], MappingFiles := [false], MappedFiles := [false],
    ReducingFiles := [false], ReducedFiles := [false], Timeout := false }

/-- A table with consistent lengths in which the map task is completed
without ever having been marked assigned; the reduce task is assigned and
not completed. -/
def completedUnassigned : Master :=
  { NFile := 1, NReduce := 1, Files := ["a"], MappingFiles := [false], MappedFiles := [true],
    ReducingFiles := [true], ReducedFiles := [false], Timeout := false }

/-- One input file and two reduce tasks; the map task is assigned, nothing
is completed. -/
def lastMapRunning : Master :=
  { NFile := 1, NReduce := 2, Files := ["a"], MappingFiles := [true], MappedFiles := [false],
    ReducingFiles := [false, false], ReducedFiles := [false, false], Timeout := false }

/-! ## worker.go -/

/-- Go: `type KeyValue struct { Key string; Value string }`. -/
structure KeyValue where
  Key : String
  Value : String
  deriving DecidableEq, Repr

/-- Go: `func (a ByKey) Less(i, j int) bool { return a[i].Key < a[j].Key }`,
as a relation on the two elements compared. -/
def ByKey.Less (x y : KeyValue) : Prop := x.Key < y.Key

/-- The result `sort.Sort(ByKey(a))` leaves in `a`: no element is `Less` than
one standing before it.  The library sort is not stable, so nothing else is
known about the order of elements with equal keys. -/
def SortedByKey (a : List KeyValue) : Prop :=
  a.Pairwise fun x y => ¬ ByKey.Less y x

/-- The bytes `[]byte(key)` of a string, as numbers below 256. -/
def keyBytes (key : String) : List Nat :=
  (key.data.flatMap String.utf8EncodeChar).map UInt8.toNat

/-- The 32-bit FNV-1a hash of `hash/fnv` (`New32a`, `Write`, `Sum32`): start
from the offset basis 2166136261 and, for every byte, xor it in and multiply
by the prime 16777619 in `uint32` arithmetic. -/
def fnv32a (bytes : List Nat) : Nat :=
  bytes.foldl (fun hash c => ((hash ^^^ c) * 16777619) % 2 ^ 32) 2166136261

/-- Go: `func ihash(key string) int`, `int(h.Sum32() & 0x7fffffff)`. -/
def ihash (key : String) : Int :=
  ((fnv32a (keyBytes key) &&& 0x7fffffff : Nat) : Int)

/-- The value of a decimal digit character. -/
def digitVal (c : Char) : Option Nat :=
  if 48 ≤ c.toNat ∧ c.toNat ≤ 57 then some (c.toNat - 48) else none

/-- Read a run of decimal digits, most significant first, onto `acc`. -/
def parseDigits : List Char → Nat → Option Nat
  | [], acc => some acc
  | c :: cs, acc => (digitVal c).bind fun d => parseDigits cs (acc * 10 + d)

/-- A non-empty run of decimal digits. -/
def parseNat (cs : List Char) : Option Nat :=
  match cs with
  | [] => none
  | _ :: _ => parseDigits cs 0

/-- The call `index, _ := strconv.Atoi(s)`: an optional sign followed by
decimal digits gives the number, anything else gives 0 (the error is
dropped).  For a number outside the `int` range Go returns the nearest bound
of the range instead; this is not modelled, the master only sends the decimal
strings of slice indices and of -1, and the theorems that read an arbitrary
`FileIndex` assume `IndexFitsInt`. -/
def Atoi (s : String) : Int :=
  match s.data with
  | '-' :: cs => match parseNat cs with
    | some n => -(n : Int)
    | none => 0
  | '+' :: cs => match parseNat cs with
    | some n => (n : Int)
    | none => 0
  | cs => match parseNat cs with
    | some n => (n : Int)
    | none => 0

/-- The intermediate file name `"mr-" + strconv.Itoa(x) + "-" + strconv.Itoa(y)`. -/
def intermediateName (x y : Int) : String :=
  "mr-" ++ Itoa x ++ "-" ++ Itoa y

/-- The output file name `"mr-out-" + strconv.Itoa(index)`. -/
def outputName (index : Int) : String :=
  "mr-out-" ++ Itoa index

/-- The file-system calls a worker can make on the files it produces. -/
inductive FsOp where
  /-- Call `os.Create(name)` succeeded: `name` now exists and is empty. -/
  | create (name : String)
  /-- Call of `json.Encoder.Encode` that wrote one record to the file created as `name`. -/
  | encode (name : String) (record : KeyValue)
  /-- Call of `fmt.Fprintf` that wrote one line to the file created as `name`. -/
  | print (name : String) (line : String)
  /-- Call `os.Rename(old, new)`. -/
  | rename (old new : String)
  deriving DecidableEq, Repr

/-- Everything outside the worker that one run of `Call` depends on: the
application functions, the library sort and the outcome of each file
operation. -/
structure WorkerEnv where
  /-- The application's map function. -/
  mapf : String → String → List KeyValue
  /-- The application's reduce function. -/
  reducef : String → List String → String
  /-- The effect of `sort.Sort(ByKey(a))` on the contents of `a`. -/
  sortByKey : List KeyValue → List KeyValue
  /-- Result of `os.Open` and `ioutil.ReadAll` of an input file: its contents,
  or `none` if either fails. -/
  readInput : String → Option String
  /-- Whether `os.Create(name)` succeeds. -/
  createOk : String → Bool
  /-- Whether `Encode` of a record to the file `name` succeeds. -/
  encodeOk : String → KeyValue → Bool
  /-- Result of `os.Open` of an intermediate file: the records the decode loop
  reads from it, or `none` if the open fails. -/
  openIntermediate : String → Option (List KeyValue)

/-- How one pass through the body of the `for response.Phase != "Done"` loop
ends. -/
inductive Action where
  /-- The assignment `request = ...` followed by `call("Master.Dispatch", ...)`. -/
  | send (request : Request)
  /-- The `switch` is left without a call; the loop tests the same response again. -/
  | again
  /-- The worker stops: `return` or `log.Fatalf`. -/
  | stop
  /-- A run-time panic. -/
  | panic
  deriving DecidableEq, Repr

/-- The file operations of one pass and the way it ends. -/
structure Attempt where
  ops : List FsOp
  action : Action
  deriving DecidableEq, Repr

/-- The index expression `encoders[ihash(key)%nReduce]`: `none` is the panic
of an integer division by zero or of an index out of range. -/
def bucketOf (key : String) (nReduce : Int) : Option Nat :=
  if nReduce = 0 then none
  else
    let b := Int.tmod (ihash key) nReduce
    if 0 ≤ b ∧ b < nReduce then some b.toNat else none

/-- The encode loop of the map case over the part of `intermediate` from
position `i` on (`kv :: rest`): `output` is built from `intermediate[i]`, the
inner loop runs over the positions `j = i, i+1, ...` whose key equals
`intermediate[i].Key` and encodes `output` once for each of them, and the
outer loop goes on at the first position with another key.  The result lists
the encoder index and the record of every `Encode` call, in order; the first
argument bounds the number of passes of the outer loop. -/
def encodeLoop (nReduce : Int) : Nat → List KeyValue → Option (List (Nat × KeyValue))
  | 0, _ => some []
  | _ + 1, [] => some []
  | fuel + 1, kv :: rest =>
    let output : KeyValue := { Key := kv.Key, Value := kv.Value }
    let run := kv :: rest.takeWhile fun x => x.Key == kv.Key
    (bucketOf kv.Key nReduce).bind fun b =>
    (encodeLoop nReduce fuel (rest.dropWhile fun x => x.Key == kv.Key)).map fun more =>
      run.map (fun _ => (b, output)) ++ more

/-- All `Encode` calls of a map task on the sorted `intermediate`. -/
def mapRecords (intermediate : List KeyValue) (nReduce : Int) : Option (List (Nat × KeyValue)) :=
  encodeLoop nReduce intermediate.length intermediate

/-- The loop `for i := 0; i < nReduce; i++ { out, err := os.Create(outName); ... }`
over the remaining values of `i`: the creations made and whether all of them
succeeded (the first failure makes the worker return). -/
def createLoop (env : WorkerEnv) (index : Int) : List Nat → List FsOp × Bool
  | [] => ([], true)
  | i :: is =>
    let outName := intermediateName index i
    if env.createOk outName then
      let r := createLoop env index is
      (FsOp.create outName :: r.1, r.2)
    else ([], false)

/-- The map case of the `switch` in `Call`. -/
def mapAttempt (env : WorkerEnv) (response : Response) : Attempt :=
  let filename := response.FileName
  let index := Atoi response.FileIndex
  let nReduce := response.NReduce
  match env.readInput filename with
  | none => { ops := [], action := Action.stop }
  | some content =>
    let kva := env.mapf filename content
    let intermediate := env.sortByKey ([] ++ kva)
    if nReduce < 0 then { ops := [], action := Action.panic }
    else
      let created := createLoop env index (List.range nReduce.toNat)
      if !created.2 then { ops := created.1, action := Action.stop }
      else
        match mapRecords intermediate nReduce with
        | none => { ops := created.1, action := Action.panic }
        | some records =>
          let encodes := records.filterMap fun r =>
            if env.encodeOk (intermediateName index r.1) r.2 then
              some (FsOp.encode (intermediateName index r.1) r.2)
            else none
          { ops := created.1 ++ encodes,
            action := Action.send { Phase := mapPhase, FileIndex := index } }

/-- The loop `for i := 0; i < nFile; i++` of the reduce case over the
remaining values of `i`: the records appended to `kva`.  A failing `os.Open`
leaves the loop with `break`. -/
def readIntermediate (env : WorkerEnv) (index : Int) : List Nat → List KeyValue
  | [] => []
  | i :: is =>
    match env.openIntermediate (intermediateName i index) with
    | none => []
    | some kvs => kvs ++ readIntermediate env index is

/-- The grouping loop of the reduce case over the part of the sorted `kva`
from position `i` on (`kv :: rest`): `j` runs from `i + 1` over the positions
whose key equals `kva[i].Key`, `values` collects `kva[i..j)`, and the loop
goes on at `j`.  The result lists the key and the values of every `reducef`
call, in order; the first argument bounds the number of passes. -/
def groupLoop : Nat → List KeyValue → List (String × List String)
  | 0, _ => []
  | _ + 1, [] => []
  | fuel + 1, kv :: rest =>
    (kv.Key, (kv :: rest.takeWhile fun x => x.Key == kv.Key).map fun x => x.Value) ::
      groupLoop fuel (rest.dropWhile fun x => x.Key == kv.Key)

/-- All `reducef` calls of a reduce task on the sorted `kva`. -/
def reduceCalls (kva : List KeyValue) : List (String × List String) :=
  groupLoop kva.length kva

/-- The lines `fmt.Fprintf(outfile, "%v %v\n", key, output)` of a reduce task. -/
def reduceLines (reducef : String → List String → String) (kva : List KeyValue) : List String :=
  (reduceCalls kva).map fun c => c.1 ++ " " ++ reducef c.1 c.2 ++ "\n"

/-- The reduce case of the `switch` in `Call`. -/
def reduceAttempt (env : WorkerEnv) (response : Response) : Attempt :=
  let index := Atoi response.FileIndex
  let nFile := response.NFile
  let kva := readIntermediate env index (List.range nFile.toNat)
  let kva := env.sortByKey kva
  let outname := outputName index
  if !env.createOk outname then { ops := [], action := Action.again }
  else
    { ops := FsOp.create outname :: (reduceLines env.reducef kva).map (FsOp.print outname),
      action := Action.send { Phase := reducePhase, FileIndex := index } }

/-- One pass through the body of the loop in `Call`, for a response whose
phase is not Done. -/
def workerStep (env : WorkerEnv) (response : Response) : Attempt :=
  if response.Phase = mapPhase then mapAttempt env response
  else if response.Phase = reducePhase then reduceAttempt env response
  else if response.Phase = waitPhase then
    { ops := [], action := Action.send { Phase := waitPhase, FileIndex := -1 } }
  else { ops := [], action := Action.again }

/-- Decoding the reply of an RPC into the caller's `response` variable:
`net/rpc` transmits the reply with `encoding/gob`, which omits fields holding
their zero value, so such fields of the caller's variable keep what they
held before the call. -/
def gobDecode (old reply : Response) : Response :=
  { Phase := if reply.Phase = "" then old.Phase else reply.Phase
    FileName := if reply.FileName = "" then old.FileName else reply.FileName
    FileIndex := if reply.FileIndex = "" then old.FileIndex else reply.FileIndex
    NReduce := if reply.NReduce = 0 then old.NReduce else reply.NReduce
    NFile := if reply.NFile = 0 then old.NFile else reply.NFile }

/-- What a run of `Call` did: the master it leaves, the requests it sent and
the replies the master gave, the file operations, and whether the loop ended
on a Done response. -/
structure Run where
  master : Master
  requests : List Request
  replies : List Response
  ops : List FsOp
  finished : Bool
  deriving DecidableEq, Repr

/-- The function `call("Master.Dispatch", &request, &response)` against the
master `m`: the handler runs on a fresh reply value, and the reply is decoded
into the worker's `response`.  `none` if the handler panics. -/
def call (m : Master) (request : Request) (response : Response) :
    Option (Master × Response × Response) :=
  (Dispatch m request Response.zero).map fun out => (out.1, out.2.1, gobDecode response out.2.1)

/-- The loop `for response.Phase != "Done" { switch response.Phase { ... } }`
of `Call`, for at most the given number of passes; `none` if the passes do
not suffice or the master panics. -/
def callLoop (env : WorkerEnv) : Nat → Master → Response → Option Run
  | 0, _, _ => none
  | fuel + 1, m, response =>
    if response.Phase = "Done" then
      some { master := m, requests := [], replies := [], ops := [], finished := true }
    else
      let attempt := workerStep env response
      match attempt.action with
      | Action.send request =>
        (call m request response).bind fun out =>
        (callLoop env fuel out.1 out.2.2).map fun run =>
          { run with requests := request :: run.requests, replies := out.2.1 :: run.replies,
                     ops := attempt.ops ++ run.ops }
      | Action.again =>
        (callLoop env fuel m response).map fun run => { run with ops := attempt.ops ++ run.ops }
      | Action.stop =>
        some { master := m, requests := [], replies := [], ops := attempt.ops, finished := false }
      | Action.panic =>
        some { master := m, requests := [], replies := [], ops := attempt.ops, finished := false }

/-- Go: `func Call(mapf, reducef)`: register with the master, then run the
loop. -/
def Call (env : WorkerEnv) (fuel : Nat) (m : Master) : Option Run :=
  let request : Request := { Phase := "Register", FileIndex := -1 }
  let response : Response := Response.zero
  (call m request response).bind fun out =>
  (callLoop env fuel out.1 out.2.2).map fun run =>
    { run with requests := request :: run.requests, replies := out.2.1 :: run.replies }

/-- An environment in which no file operation fails. -/
def NoIOFailure (env : WorkerEnv) : Prop :=
  (∀ name, (env.readInput name).isSome) ∧ (∀ name, env.createOk name = true) ∧
  (∀ name record, env.encodeOk name record = true) ∧
  (∀ name, (env.openIntermediate name).isSome)

/-- Word count's map function on a fixed two-word text, the identity as the
sort, length as the reduce function, and every file operation succeeding:
a concrete environment for test points. -/
def sampleEnv : WorkerEnv :=
  { mapf := fun _ _ => [{ Key := "a", Value := "1" }, { Key := "b", Value := "1" }]
    reducef := fun _ values => Nat.repr values.length
    sortByKey := fun a => a
    readInput := fun _ => some "a b"
    createOk := fun _ => true
    encodeOk := fun _ _ => true
    openIntermediate := fun _ => some [] }

/-- The environment `sampleEnv` with every `os.Open` of an intermediate file
and every `Encode` failing. -/
def failingEnv : WorkerEnv :=
  { sampleEnv with openIntermediate := fun _ => none, encodeOk := fun _ _ => false }

/-- A Map assignment for task 0 with one reduce bucket. -/
def mapZero : Response :=
  { Phase := mapPhase, FileName := "a", FileIndex := "0", NReduce := 1, NFile := 1 }

/-- A Reduce assignment for task 0 with one map task. -/
def reduceZero : Response :=
  { Phase := reducePhase, FileName := "", FileIndex := "0", NReduce := 1, NFile := 1 }

/-- A flag slice of length `n` whose first `k` entries are `true` and whose
other entries are `false`. -/
def flags (n k : Nat) : List Bool :=
  List.replicate k true ++ List.replicate (n - k) false

/-- The master made for `files` and `nReduce` reduce tasks after the first
`a` map tasks were assigned and the first `b` completed, the first `c`
reduce tasks assigned and the first `d` completed; the timeout flag is
`false`. -/
def progress (files : List String) (nReduce a b c d : Nat) : Master :=
  { NFile := (files.length : Int)
    NReduce := (nReduce : Int)
    Files := files
    MappingFiles := flags files.length a
    MappedFiles := flags files.length b
    ReducingFiles := flags nReduce c
    ReducedFiles := flags nReduce d
    Timeout := false }

/-- The phase and task index of a reply. -/
def assignment (r : Response) : phaseType × String := (r.Phase, r.FileIndex)

/-- No more map tasks are completed than are marked assigned. -/
def CompletedWithinAssigned (m : Master) : Prop :=
  m.MappedFiles.count true ≤ m.MappingFiles.count true

/-- The number written in `FileIndex` lies in the range of Go's `int`, so
that `strconv.Atoi` returns it as it is (for a number outside that range Go
returns the nearest bound of the range, which `Atoi` above does not model). -/
def IndexFitsInt (response : Response) : Prop :=
  -(2 : Int) ^ 63 ≤ Atoi response.FileIndex ∧ Atoi response.FileIndex < (2 : Int) ^ 63

/-- The environment `sampleEnv` with every `os.Create` failing and every
intermediate file holding the single record `("a", "1")`. -/
def createFailEnv : WorkerEnv :=
  { sampleEnv with createOk := fun _ => false,
                   openIntermediate := fun _ => some [{ Key := "a", Value := "1" }] }

/-! ## Lemmas on the scanning loop and on slice updates -/

theorem scanFrom_fst_iff (l : List Bool) (k : Nat) :
    (scanFrom l k).1 = true ↔ AllTrue l := by
  induction l generalizing k with
  | nil => simp [scanFrom, AllTrue]
  | cons v vs ih =>
    cases v
    · simp [scanFrom, AllTrue]
    · simpa [scanFrom, AllTrue] using ih (k + 1)

theorem scan_fst_iff (l : List Bool) : (scan l).1 = true ↔ AllTrue l :=
  scanFrom_fst_iff l 0

theorem scanFrom_false (l : List Bool) (k : Nat) (h : (scanFrom l k).1 = false) :
    ∃ j : Nat, LeastFalse l j ∧ (scanFrom l k).2 = ((k + j : Nat) : Int) := by
  induction l generalizing k with
  | nil => simp [scanFrom] at h
  | cons v vs ih =>
    cases v
    · exact ⟨0, ⟨by simp, by intro j hj; omega⟩, by simp [scanFrom]⟩
    · have h' : (scanFrom vs (k + 1)).1 = false := by simpa [scanFrom] using h
      obtain ⟨j, ⟨hj, hmin⟩, hidx⟩ := ih (k + 1) h'
      refine ⟨j + 1, ⟨by simpa using hj, ?_⟩, ?_⟩
      · intro i hi
        cases i with
        | zero => simp
        | succ i => simpa using hmin i (by omega)
      · have : (scanFrom (true :: vs) k).2 = (scanFrom vs (k + 1)).2 := by simp [scanFrom]
        rw [this, hidx]
        congr 1
        omega

theorem scan_false (l : List Bool) (h : (scan l).1 = false) :
    ∃ j : Nat, LeastFalse l j ∧ (scan l).2 = (j : Int) := by
  obtain ⟨j, hj, hidx⟩ := scanFrom_false l 0 h
  exact ⟨j, hj, by simpa [scan] using hidx⟩

theorem LeastFalse.lt_length {s : List Bool} {i : Nat} (h : LeastFalse s i) : i < s.length := by
  by_contra hc
  have := h.1
  rw [List.getElem?_eq_none (by omega)] at this
  exact absurd this (by simp)

theorem LeastFalse.unique {s : List Bool} {i j : Nat} (hi : LeastFalse s i)
    (hj : LeastFalse s j) : i = j := by
  rcases Nat.lt_trichotomy i j with h | h | h
  · have := hj.2 i h
    rw [hi.1] at this
    exact absurd this (by simp)
  · exact h
  · have := hi.2 j h
    rw [hj.1] at this
    exact absurd this (by simp)

theorem scan_of_leastFalse {s : List Bool} {i : Nat} (h : LeastFalse s i) :
    scan s = (false, (i : Int)) := by
  have hf : (scan s).1 = false := by
    cases hs : (scan s).1
    · rfl
    · have hall := (scan_fst_iff s).1 hs
      have hmem := List.getElem?_mem h.1
      exact absurd (hall _ hmem) (by simp)
  obtain ⟨j, hj, hidx⟩ := scan_false s hf
  have := LeastFalse.unique h hj
  subst this
  exact Prod.ext hf hidx

theorem setIdx_eq_some {α : Type} {s s' : List α} {i : Int} {v : α} :
    setIdx s i v = some s' ↔ 0 ≤ i ∧ i.toNat < s.length ∧ s' = s.set i.toNat v := by
  unfold setIdx
  split_ifs with h
  · simp [h.1, h.2, eq_comm]
  · simp only [false_iff, reduceCtorEq]
    intro hc
    exact h ⟨hc.1, hc.2.1⟩

theorem setIdx_natCast {α : Type} (s : List α) (i : Nat) (v : α) (h : i < s.length) :
    setIdx s (i : Int) v = some (s.set i v) := by
  simp [setIdx, h]

theorem getIdx_natCast {α : Type} (s : List α) (i : Nat) :
    getIdx s (i : Int) = s[i]? := by
  simp [getIdx]

theorem getElem?_set_true {s : List Bool} {j : Nat} (h : s[j]? = some true) (i : Nat) :
    (s.set i true)[j]? = some true := by
  rw [List.getElem?_set]
  split_ifs with h1 h2
  · rfl
  · subst h1
    rw [List.getElem?_eq_none (by omega)] at h
    exact absurd h (by simp)
  · exact h


/-! ## Effect of the three branches of `Dispatch` on the task table -/

theorem dispatchPoll_state {m m' : Master} {r r' : Response}
    (h : dispatchPoll m r = some (m', r')) :
    m'.NFile = m.NFile ∧ m'.NReduce = m.NReduce ∧ m'.Files = m.Files ∧
    m'.MappedFiles = m.MappedFiles ∧ m'.ReducingFiles = m.ReducingFiles ∧
    m'.ReducedFiles = m.ReducedFiles ∧
    (m'.MappingFiles = m.MappingFiles ∨ ∃ i, m'.MappingFiles = m.MappingFiles.set i true) := by
  unfold dispatchPoll at h
  generalize scan m.MappingFiles = sa at h
  generalize scan m.MappedFiles = sb at h
  generalize scan m.ReducingFiles = sc at h
  generalize scan m.ReducedFiles = sd at h
  obtain ⟨a1, a2⟩ := sa
  obtain ⟨b1, b2⟩ := sb
  obtain ⟨c1, c2⟩ := sc
  obtain ⟨d1, d2⟩ := sd
  cases a1 <;> cases b1 <;> cases c1 <;> cases d1 <;> cases ht : m.Timeout <;>
    simp [Option.bind_eq_some, setIdx_eq_some, ht] at h
  all_goals first
    | (obtain ⟨_, ⟨_, _, rfl⟩, _, _, rfl, rfl⟩ := h
       exact ⟨rfl, rfl, rfl, rfl, rfl, rfl, Or.inr ⟨_, rfl⟩⟩)
    | (obtain ⟨_, _, rfl, rfl⟩ := h; exact ⟨rfl, rfl, rfl, rfl, rfl, rfl, Or.inl rfl⟩)
    | (obtain ⟨rfl, rfl⟩ := h; exact ⟨rfl, rfl, rfl, rfl, rfl, rfl, Or.inl rfl⟩)

theorem dispatchPoll_phase {m m' : Master} {r' : Response}
    (h : dispatchPoll m Response.zero = some (m', r')) :
    (r'.Phase = "Reduce" → AllTrue m.MappedFiles) ∧
    (r'.Phase = "Done" → AllTrue m.ReducedFiles) := by
  unfold dispatchPoll at h
  generalize scan m.MappingFiles = sa at h
  generalize hb : scan m.MappedFiles = sb at h
  generalize scan m.ReducingFiles = sc at h
  generalize hd : scan m.ReducedFiles = sd at h
  obtain ⟨a1, a2⟩ := sa
  obtain ⟨b1, b2⟩ := sb
  obtain ⟨c1, c2⟩ := sc
  obtain ⟨d1, d2⟩ := sd
  have hb1 : b1 = true → AllTrue m.MappedFiles :=
    fun hh => (scan_fst_iff _).1 (by rw [hb]; exact hh)
  have hd1 : d1 = true → AllTrue m.ReducedFiles :=
    fun hh => (scan_fst_iff _).1 (by rw [hd]; exact hh)
  cases a1 <;> cases b1 <;> cases c1 <;> cases d1 <;> cases ht : m.Timeout <;>
    simp [Option.bind_eq_some, setIdx_eq_some, ht, mapPhase, reducePhase, waitPhase,
      Response.zero] at h
  all_goals (obtain ⟨_, _, _, _, _, rfl⟩ := h; simp [hb1, hd1])

theorem dispatchMap_state {m m' : Master} {q : Request} {r r' : Response}
    (h : dispatchMap m q r = some (m', r')) :
    (0 ≤ q.FileIndex ∧ q.FileIndex.toNat < m.MappedFiles.length) ∧
    m'.NFile = m.NFile ∧ m'.NReduce = m.NReduce ∧ m'.Files = m.Files ∧
    m'.MappedFiles = m.MappedFiles.set q.FileIndex.toNat true ∧
    m'.ReducedFiles = m.ReducedFiles ∧
    (m'.MappingFiles = m.MappingFiles ∨ ∃ i, m'.MappingFiles = m.MappingFiles.set i true) ∧
    (m'.ReducingFiles = m.ReducingFiles ∨
      (AllTrue m'.MappedFiles ∧ ∃ i, m'.ReducingFiles = m.ReducingFiles.set i true)) := by
  unfold dispatchMap at h
  obtain ⟨mapped, hset, h⟩ := Option.bind_eq_some.1 h
  obtain ⟨h0, hlt, rfl⟩ := setIdx_eq_some.1 hset
  simp only at h
  generalize scan m.MappingFiles = sa at h
  generalize hb : scan (m.MappedFiles.set q.FileIndex.toNat true) = sb at h
  generalize scan m.ReducingFiles = sc at h
  obtain ⟨a1, a2⟩ := sa
  obtain ⟨b1, b2⟩ := sb
  obtain ⟨c1, c2⟩ := sc
  have hb1 : b1 = true → AllTrue (m.MappedFiles.set q.FileIndex.toNat true) :=
    fun hh => (scan_fst_iff _).1 (by rw [hb]; exact hh)
  cases a1 <;> cases b1 <;> cases c1 <;> cases ht : m.Timeout <;>
    simp [Option.bind_eq_some, setIdx_eq_some, ht] at h
  all_goals first
    | (obtain ⟨_, ⟨_, _, rfl⟩, _, _, rfl, rfl⟩ := h
       exact ⟨⟨h0, hlt⟩, rfl, rfl, rfl, rfl, rfl, Or.inr ⟨_, rfl⟩, Or.inl rfl⟩)
    | (obtain ⟨_, ⟨_, _, rfl⟩, rfl, rfl⟩ := h
       exact ⟨⟨h0, hlt⟩, rfl, rfl, rfl, rfl, rfl, Or.inl rfl, Or.inr ⟨hb1 rfl, _, rfl⟩⟩)
    | (obtain ⟨_, _, rfl, rfl⟩ := h
       exact ⟨⟨h0, hlt⟩, rfl, rfl, rfl, rfl, rfl, Or.inl rfl, Or.inl rfl⟩)
    | (obtain ⟨rfl, rfl⟩ := h
       exact ⟨⟨h0, hlt⟩, rfl, rfl, rfl, rfl, rfl, Or.inl rfl, Or.inl rfl⟩)

theorem dispatchMap_phase {m m' : Master} {q : Request} {r' : Response}
    (h : dispatchMap m q Response.zero = some (m', r')) :
    (r'.Phase = "Reduce" → AllTrue m'.MappedFiles) ∧ r'.Phase ≠ "Done" := by
  have hst := dispatchMap_state h
  unfold dispatchMap at h
  obtain ⟨mapped, hset, h⟩ := Option.bind_eq_some.1 h
  obtain ⟨h0, hlt, rfl⟩ := setIdx_eq_some.1 hset
  simp only at h
  rw [hst.2.2.2.2.1]
  generalize scan m.MappingFiles = sa at h
  generalize hb : scan (m.MappedFiles.set q.FileIndex.toNat true) = sb at h
  generalize scan m.ReducingFiles = sc at h
  obtain ⟨a1, a2⟩ := sa
  obtain ⟨b1, b2⟩ := sb
  obtain ⟨c1, c2⟩ := sc
  have hb1 : b1 = true → AllTrue (m.MappedFiles.set q.FileIndex.toNat true) :=
    fun hh => (scan_fst_iff _).1 (by rw [hb]; exact hh)
  cases a1 <;> cases b1 <;> cases c1 <;> cases ht : m.Timeout <;>
    simp [Option.bind_eq_some, setIdx_eq_some, ht, mapPhase, reducePhase, waitPhase,
      Response.zero] at h
  all_goals (obtain ⟨_, _, _, _, _, rfl⟩ := h; simp [hb1])

theorem dispatchReduce_state {m m' : Master} {q : Request} {r r' : Response}
    (h : dispatchReduce m q r = some (m', r')) :
    (0 ≤ q.FileIndex ∧ q.FileIndex.toNat < m.ReducedFiles.length) ∧
    m'.NFile = m.NFile ∧ m'.NReduce = m.NReduce ∧ m'.Files = m.Files ∧
    m'.MappingFiles = m.MappingFiles ∧ m'.MappedFiles = m.MappedFiles ∧
    m'.ReducedFiles = m.ReducedFiles.set q.FileIndex.toNat true ∧
    (m'.ReducingFiles = m.ReducingFiles ∨
      (AllTrue m.MappedFiles ∧ ∃ i, m'.ReducingFiles = m.ReducingFiles.set i true)) := by
  unfold dispatchReduce at h
  obtain ⟨reduced, hset, h⟩ := Option.bind_eq_some.1 h
  obtain ⟨h0, hlt, rfl⟩ := setIdx_eq_some.1 hset
  simp only at h
  generalize hb : scan m.MappedFiles = sb at h
  generalize scan m.ReducingFiles = sc at h
  generalize scan (m.ReducedFiles.set q.FileIndex.toNat true) = sd at h
  obtain ⟨b1, b2⟩ := sb
  obtain ⟨c1, c2⟩ := sc
  obtain ⟨d1, d2⟩ := sd
  have hb1 : b1 = true → AllTrue m.MappedFiles :=
    fun hh => (scan_fst_iff _).1 (by rw [hb]; exact hh)
  cases b1 <;> cases c1 <;> cases d1 <;> cases ht : m.Timeout <;>
    simp [Option.bind_eq_some, setIdx_eq_some, ht] at h
  all_goals first
    | (obtain ⟨_, ⟨_, _, rfl⟩, rfl, rfl⟩ := h
       exact ⟨⟨h0, hlt⟩, rfl, rfl, rfl, rfl, rfl, rfl, Or.inr ⟨hb1 rfl, _, rfl⟩⟩)
    | (obtain ⟨rfl, rfl⟩ := h
       exact ⟨⟨h0, hlt⟩, rfl, rfl, rfl, rfl, rfl, rfl, Or.inl rfl⟩)

theorem dispatchReduce_phase {m m' : Master} {q : Request} {r' : Response}
    (h : dispatchReduce m q Response.zero = some (m', r')) :
    (r'.Phase = "Reduce" →
      AllTrue m.MappedFiles ∨ (AllTrue m.ReducingFiles ∧ ¬ AllTrue m'.ReducedFiles)) ∧
    (r'.Phase = "Done" → AllTrue m'.ReducedFiles) := by
  have hst := dispatchReduce_state h
  unfold dispatchReduce at h
  obtain ⟨reduced, hset, h⟩ := Option.bind_eq_some.1 h
  obtain ⟨h0, hlt, rfl⟩ := setIdx_eq_some.1 hset
  simp only at h
  rw [hst.2.2.2.2.2.2.1]
  generalize hb : scan m.MappedFiles = sb at h
  generalize hc : scan m.ReducingFiles = sc at h
  generalize hd : scan (m.ReducedFiles.set q.FileIndex.toNat true) = sd at h
  obtain ⟨b1, b2⟩ := sb
  obtain ⟨c1, c2⟩ := sc
  obtain ⟨d1, d2⟩ := sd
  have hb1 : b1 = true → AllTrue m.MappedFiles :=
    fun hh => (scan_fst_iff _).1 (by rw [hb]; exact hh)
  have hc1 : c1 = true → AllTrue m.ReducingFiles :=
    fun hh => (scan_fst_iff _).1 (by rw [hc]; exact hh)
  have hd1 : d1 = true ↔ AllTrue (m.ReducedFiles.set q.FileIndex.toNat true) := by
    rw [← scan_fst_iff, hd]
  cases b1 <;> cases c1 <;> cases d1 <;> cases ht : m.Timeout <;>
    simp [Option.bind_eq_some, setIdx_eq_some, ht, mapPhase, reducePhase, waitPhase,
      Response.zero] at h
  all_goals (obtain ⟨_, _, _, _, rfl⟩ := h; simp at hd1; simp [hb1, hc1, hd1])

/-! ## `Dispatch` as a whole -/

theorem Dispatch_cases {m m' : Master} {q : Request} {r r' : Response} {e : GoError}
    (h : Dispatch m q r = some (m', r', e)) :
    e = none ∧
    (dispatchPoll m r = some (m', r') ∨ dispatchMap m q r = some (m', r') ∨
      dispatchReduce m q r = some (m', r') ∨
      (m' = m ∧ r' = r ∧ q.Phase ≠ "Register" ∧ q.Phase ≠ "Waiting" ∧ q.Phase ≠ "Map" ∧
        q.Phase ≠ "Reduce")) := by
  unfold Dispatch at h
  split_ifs at h with h1 h2 h3
  · obtain ⟨⟨a, b⟩, hab, heq⟩ := Option.map_eq_some'.1 h
    simp only [Prod.mk.injEq] at heq
    obtain ⟨rfl, rfl, rfl⟩ := heq
    exact ⟨rfl, Or.inl hab⟩
  · obtain ⟨⟨a, b⟩, hab, heq⟩ := Option.map_eq_some'.1 h
    simp only [Prod.mk.injEq] at heq
    obtain ⟨rfl, rfl, rfl⟩ := heq
    exact ⟨rfl, Or.inr (Or.inl hab)⟩
  · obtain ⟨⟨a, b⟩, hab, heq⟩ := Option.map_eq_some'.1 h
    simp only [Prod.mk.injEq] at heq
    obtain ⟨rfl, rfl, rfl⟩ := heq
    exact ⟨rfl, Or.inr (Or.inr (Or.inl hab))⟩
  · simp only [Option.some.injEq, Prod.mk.injEq] at h
    obtain ⟨rfl, rfl, rfl⟩ := h
    refine ⟨rfl, Or.inr (Or.inr (Or.inr ⟨rfl, rfl, ?_, ?_, h2, h3⟩))⟩
    · exact fun hc => h1 (Or.inl hc)
    · exact fun hc => h1 (Or.inr hc)

theorem Grows.refl (s : List Bool) : Grows s s := ⟨rfl, fun _ h => h⟩

theorem Grows.of_set (s : List Bool) (i : Nat) : Grows s (s.set i true) :=
  ⟨by simp, fun _ h => getElem?_set_true h i⟩

theorem Grows.of_or {s s' : List Bool} (h : s' = s ∨ ∃ i, s' = s.set i true) : Grows s s' := by
  rcases h with rfl | ⟨i, rfl⟩
  · exact Grows.refl _
  · exact Grows.of_set _ _

theorem Grows.allTrue {s s' : List Bool} (h : Grows s s') (ha : AllTrue s) : AllTrue s' := by
  intro b hb
  obtain ⟨j, hj⟩ := List.getElem?_of_mem hb
  have hlt : j < s'.length := by
    by_contra hc
    rw [List.getElem?_eq_none (by omega)] at hj
    exact absurd hj (by simp)
  have hjs : s[j]? = some true := by
    rw [List.getElem?_eq_getElem (by rw [← h.length_eq]; exact hlt)]
    congr 1
    exact ha _ (List.getElem_mem _)
  have := h.mono j hjs
  rw [hj] at this
  exact Option.some.inj this

/-- Every returning `Dispatch` call keeps the sizes, the file list and the
lengths of the four flag slices, and only ever sets flags. -/
theorem Dispatch_grows {m m' : Master} {q : Request} {r r' : Response} {e : GoError}
    (h : Dispatch m q r = some (m', r', e)) :
    m'.NFile = m.NFile ∧ m'.NReduce = m.NReduce ∧ m'.Files = m.Files ∧
    Grows m.MappingFiles m'.MappingFiles ∧ Grows m.MappedFiles m'.MappedFiles ∧
    Grows m.ReducingFiles m'.ReducingFiles ∧ Grows m.ReducedFiles m'.ReducedFiles := by
  obtain ⟨-, hp | hm | hr | ⟨rfl, -⟩⟩ := Dispatch_cases h
  · obtain ⟨h1, h2, h3, h4, h5, h6, h7⟩ := dispatchPoll_state hp
    refine ⟨h1, h2, h3, Grows.of_or h7, ?_, ?_, ?_⟩
    · rw [h4]; exact Grows.refl _
    · rw [h5]; exact Grows.refl _
    · rw [h6]; exact Grows.refl _
  · obtain ⟨-, h1, h2, h3, h4, h5, h6, h7⟩ := dispatchMap_state hm
    refine ⟨h1, h2, h3, Grows.of_or h6, ?_, ?_, ?_⟩
    · rw [h4]; exact Grows.of_set _ _
    · rcases h7 with h7 | ⟨-, h7⟩
      · exact Grows.of_or (Or.inl h7)
      · exact Grows.of_or (Or.inr h7)
    · rw [h5]; exact Grows.refl _
  · obtain ⟨-, h1, h2, h3, h4, h5, h6, h7⟩ := dispatchReduce_state hr
    refine ⟨h1, h2, h3, ?_, ?_, ?_, ?_⟩
    · rw [h4]; exact Grows.refl _
    · rw [h5]; exact Grows.refl _
    · rcases h7 with h7 | ⟨-, h7⟩
      · exact Grows.of_or (Or.inl h7)
      · exact Grows.of_or (Or.inr h7)
    · rw [h6]; exact Grows.of_set _ _
  · exact ⟨rfl, rfl, rfl, Grows.refl _, Grows.refl _, Grows.refl _, Grows.refl _⟩

theorem Dispatch_reduceAfterMap {m m' : Master} {q : Request} {r r' : Response} {e : GoError}
    (h : Dispatch m q r = some (m', r', e)) (hinv : ReduceAfterMap m) : ReduceAfterMap m' := by
  have hg := Dispatch_grows h
  obtain ⟨-, hp | hm | hr | ⟨rfl, -⟩⟩ := Dispatch_cases h
  · obtain ⟨-, -, -, h4, h5, -, -⟩ := dispatchPoll_state hp
    intro hex
    rw [h4]
    rw [h5] at hex
    exact hinv hex
  · obtain ⟨-, -, -, -, h4, -, -, h7⟩ := dispatchMap_state hm
    rcases h7 with h7 | ⟨hall, -⟩
    · intro hex
      rw [h7] at hex
      exact hg.2.2.2.2.1.allTrue (hinv hex)
    · exact fun _ => hall
  · obtain ⟨-, -, -, -, -, h5, -, h7⟩ := dispatchReduce_state hr
    rcases h7 with h7 | ⟨hall, -⟩
    · intro hex
      rw [h7] at hex
      rw [h5]
      exact hinv hex
    · intro _
      rw [h5]
      exact hall
  · exact hinv

theorem MakeMaster_eq_some {files : List String} {nReduce : Int} {m : Master}
    (h : MakeMaster files nReduce = some m) :
    0 ≤ nReduce ∧
    m = { NFile := (files.length : Int), NReduce := nReduce, Files := files,
          MappingFiles := List.replicate files.length false,
          MappedFiles := List.replicate files.length false,
          ReducingFiles := List.replicate nReduce.toNat false,
          ReducedFiles := List.replicate nReduce.toNat false,
          Timeout := false } := by
  unfold MakeMaster at h
  split_ifs at h with hn
  simp only [Option.some.injEq] at h
  exact ⟨by omega, h.symm⟩

theorem Reachable.wellFormed {m : Master} (h : Reachable m) : WellFormed m := by
  induction h with
  | make files nReduce m hm =>
    obtain ⟨h0, rfl⟩ := MakeMaster_eq_some hm
    simp [WellFormed, MapWellFormed, ReduceWellFormed, Int.toNat_of_nonneg h0]
  | step m m' q r r' e _ hd ih =>
    obtain ⟨h1, h2, h3, h4, h5, h6, h7⟩ := Dispatch_grows hd
    obtain ⟨⟨w1, w2, w3⟩, w4, w5⟩ := ih
    refine ⟨⟨?_, ?_, ?_⟩, ?_, ?_⟩
    · rw [h3, h1]; exact w1
    · rw [h4.length_eq, h1]; exact w2
    · rw [h5.length_eq, h1]; exact w3
    · rw [h6.length_eq, h2]; exact w4
    · rw [h7.length_eq, h2]; exact w5

theorem Reachable.reduceAfterMap {m : Master} (h : Reachable m) : ReduceAfterMap m := by
  induction h with
  | make files nReduce m hm =>
    obtain ⟨h0, rfl⟩ := MakeMaster_eq_some hm
    rintro ⟨b, hb, rfl⟩
    simp at hb
  | step m m' q r r' e _ hd ih => exact Dispatch_reduceAfterMap hd ih

/-! ## When `Dispatch` returns -/

theorem scan_index_of_false {s : List Bool} {i : Int} (h : scan s = (false, i)) :
    ∃ j : Nat, i = (j : Int) ∧ LeastFalse s j ∧ j < s.length := by
  obtain ⟨j, hj, hidx⟩ := scan_false s (by rw [h])
  rw [h] at hidx
  exact ⟨j, hidx, hj, hj.lt_length⟩

theorem getIdx_isSome {α : Type} {s : List α} {j : Nat} (h : j < s.length) :
    ∃ a, getIdx s (j : Int) = some a ∧ s[j]? = some a := by
  refine ⟨s[j], ?_, ?_⟩
  · rw [getIdx_natCast, List.getElem?_eq_getElem h]
  · rw [List.getElem?_eq_getElem h]

theorem dispatchPoll_total (m : Master) (r : Response)
    (h1 : m.MappingFiles.length ≤ m.Files.length) (h2 : m.MappedFiles.length ≤ m.Files.length) :
    ∃ out, dispatchPoll m r = some out := by
  unfold dispatchPoll
  generalize ha : scan m.MappingFiles = sa
  generalize hb : scan m.MappedFiles = sb
  generalize scan m.ReducingFiles = sc
  generalize scan m.ReducedFiles = sd
  obtain ⟨a1, a2⟩ := sa
  obtain ⟨b1, b2⟩ := sb
  obtain ⟨c1, c2⟩ := sc
  obtain ⟨d1, d2⟩ := sd
  cases a1
  · obtain ⟨j, rfl, -, hj⟩ := scan_index_of_false ha
    obtain ⟨a, hget, -⟩ := getIdx_isSome (s := m.Files) (j := j) (by omega)
    simp [setIdx_natCast _ _ _ hj, hget]
  · cases b1
    · obtain ⟨j, rfl, -, hj⟩ := scan_index_of_false hb
      obtain ⟨a, hget, -⟩ := getIdx_isSome (s := m.Files) (j := j) (by omega)
      cases m.Timeout <;> simp [hget]
    · cases c1 <;> cases d1 <;> cases m.Timeout <;> simp

theorem dispatchMap_total (m : Master) (q : Request) (r : Response)
    (h1 : m.MappingFiles.length ≤ m.Files.length) (h2 : m.MappedFiles.length ≤ m.Files.length)
    (h0 : 0 ≤ q.FileIndex) (hlt : q.FileIndex.toNat < m.MappedFiles.length) :
    ∃ out, dispatchMap m q r = some out := by
  unfold dispatchMap
  have hset : setIdx m.MappedFiles q.FileIndex true =
      some (m.MappedFiles.set q.FileIndex.toNat true) := by simp [setIdx, h0, hlt]
  simp only [hset, Option.some_bind]
  generalize ha : scan m.MappingFiles = sa
  generalize hb : scan (m.MappedFiles.set q.FileIndex.toNat true) = sb
  generalize hc : scan m.ReducingFiles = sc
  obtain ⟨a1, a2⟩ := sa
  obtain ⟨b1, b2⟩ := sb
  obtain ⟨c1, c2⟩ := sc
  cases a1
  · obtain ⟨j, rfl, -, hj⟩ := scan_index_of_false ha
    obtain ⟨a, hget, -⟩ := getIdx_isSome (s := m.Files) (j := j) (by omega)
    simp [setIdx_natCast _ _ _ hj, hget]
  · cases b1
    · obtain ⟨j, rfl, -, hj⟩ := scan_index_of_false hb
      rw [List.length_set] at hj
      obtain ⟨a, hget, -⟩ := getIdx_isSome (s := m.Files) (j := j) (by omega)
      cases m.Timeout <;> simp [hget]
    · cases c1
      · obtain ⟨j, rfl, -, hj⟩ := scan_index_of_false hc
        simp [setIdx_natCast _ _ _ hj]
      · simp

theorem dispatchReduce_total (m : Master) (q : Request) (r : Response)
    (h0 : 0 ≤ q.FileIndex) (hlt : q.FileIndex.toNat < m.ReducedFiles.length) :
    ∃ out, dispatchReduce m q r = some out := by
  unfold dispatchReduce
  have hset : setIdx m.ReducedFiles q.FileIndex true =
      some (m.ReducedFiles.set q.FileIndex.toNat true) := by simp [setIdx, h0, hlt]
  simp only [hset, Option.some_bind]
  generalize scan m.MappedFiles = sb
  generalize hc : scan m.ReducingFiles = sc
  generalize scan (m.ReducedFiles.set q.FileIndex.toNat true) = sd
  obtain ⟨b1, b2⟩ := sb
  obtain ⟨c1, c2⟩ := sc
  obtain ⟨d1, d2⟩ := sd
  cases c1
  · obtain ⟨j, rfl, -, hj⟩ := scan_index_of_false hc
    cases b1 <;> cases d1 <;> cases m.Timeout <;> simp [setIdx_natCast _ _ _ hj]
  · cases b1 <;> cases d1 <;> cases m.Timeout <;> simp

/-- On a well-formed master every request with an in-range index is
answered: no slice access of `Dispatch` goes out of range. -/
theorem Dispatch_total (m : Master) (q : Request) (r : Response)
    (hwf : WellFormed m) (hq : InRange m q) :
    ∃ m' r', Dispatch m q r = some (m', r', none) := by
  obtain ⟨⟨w1, w2, w3⟩, w4, w5⟩ := hwf
  have l1 : m.MappingFiles.length ≤ m.Files.length := by omega
  have l2 : m.MappedFiles.length ≤ m.Files.length := by omega
  unfold Dispatch
  split_ifs with h1 h2 h3
  · obtain ⟨⟨a, b⟩, hab⟩ := dispatchPoll_total m r l1 l2
    exact ⟨a, b, by simp [hab]⟩
  · obtain ⟨h0, hlt⟩ := hq.1 h2
    obtain ⟨⟨a, b⟩, hab⟩ := dispatchMap_total m q r l1 l2 h0 (by omega)
    exact ⟨a, b, by simp [hab]⟩
  · obtain ⟨h0, hlt⟩ := hq.2 h3
    obtain ⟨⟨a, b⟩, hab⟩ := dispatchReduce_total m q r h0 (by omega)
    exact ⟨a, b, by simp [hab]⟩
  · exact ⟨m, r, rfl⟩

theorem set_true_of_getElem? {s : List Bool} {i : Nat} (h : s[i]? = some true) :
    s.set i true = s := by
  apply List.ext_getElem?
  intro j
  rw [List.getElem?_set]
  split_ifs with h1 h2
  · subst h1; exact h.symm
  · subst h1
    rw [List.getElem?_eq_none (by omega)] at h
    exact absurd h (by simp)
  · rfl

theorem getElem?_lt_length {s : List Bool} {i : Nat} {b : Bool} (h : s[i]? = some b) :
    i < s.length := by
  by_contra hc
  rw [List.getElem?_eq_none (by omega)] at h
  exact absurd h (by simp)

/-! ## Claims on the scheduling invariants -/

/-- A table no run produces shows why the invariant on reduce assignments is
stated for the tables a run can produce: with both reduce tasks marked
assigned, the timeout flag set and the only map task not completed, a Reduce
completion report for task 0 is answered with a Reduce assignment (task 1)
although `MappedFiles` still holds a `false` entry. -/
theorem Dispatch_reduce_report_unmapped_table :
    Dispatch unmappedAllReducing { Phase := reducePhase, FileIndex := 0 } Response.zero =
      some ({ unmappedAllReducing with ReducedFiles := [true, false], Timeout := false },
            { Phase := reducePhase, FileName := "", FileIndex := "1", NReduce := 2, NFile := 1 },
            none) ∧
    ¬ AllTrue
      ({ unmappedAllReducing with ReducedFiles := [true, false], Timeout := false }).MappedFiles := by
  refine ⟨by rfl, ?_⟩
  intro h
  exact absurd (h false (by simp [unmappedAllReducing])) (by decide)

/-- Claim C6: completed is terminal.  For every master state, request and
response value, on a well-formed state with an in-range report index the
call returns, and whenever the call returns every entry of `MappedFiles`
and of `ReducedFiles` that was `true` before is `true` after (and both
slices keep their length). -/
theorem Dispatch_completed_terminal (m : Master) (q : Request) (r : Response) :
    (WellFormed m → InRange m q → ∃ m' r', Dispatch m q r = some (m', r', none)) ∧
    ∀ (m' : Master) (r' : Response) (e : GoError), Dispatch m q r = some (m', r', e) →
      (m'.MappedFiles.length = m.MappedFiles.length ∧
        ∀ i : Nat, m.MappedFiles[i]? = some true → m'.MappedFiles[i]? = some true) ∧
      (m'.ReducedFiles.length = m.ReducedFiles.length ∧
        ∀ i : Nat, m.ReducedFiles[i]? = some true → m'.ReducedFiles[i]? = some true) := by
  refine ⟨fun hwf hq => Dispatch_total m q r hwf hq, ?_⟩
  intro m' r' e h
  obtain ⟨-, -, -, -, h5, -, h7⟩ := Dispatch_grows h
  exact ⟨⟨h5.length_eq, h5.mono⟩, ⟨h7.length_eq, h7.mono⟩⟩

/-- Witness for C6: a duplicate Map report for the completed map task 0 of
`oneReduceIdle` returns and leaves `MappedFiles[0]` set. -/
theorem Dispatch_completed_terminal_witness :
    (WellFormed oneReduceIdle ∧ InRange oneReduceIdle { Phase := mapPhase, FileIndex := 0 }) ∧
    (∃ m' r', Dispatch oneReduceIdle { Phase := mapPhase, FileIndex := 0 } Response.zero =
        some (m', r', none)) ∧
    ∃ m' r' e, Dispatch oneReduceIdle { Phase := mapPhase, FileIndex := 0 } Response.zero =
        some (m', r', e) ∧
      oneReduceIdle.MappedFiles[0]? = some true ∧ m'.MappedFiles[0]? = some true :=
  have hwf : WellFormed oneReduceIdle := by
    simp [WellFormed, MapWellFormed, ReduceWellFormed, oneReduceIdle]
  have hq : InRange oneReduceIdle { Phase := mapPhase, FileIndex := 0 } := by
    simp [InRange, oneReduceIdle, mapPhase, reducePhase]
  ⟨⟨hwf, hq⟩,
   (Dispatch_completed_terminal oneReduceIdle { Phase := mapPhase, FileIndex := 0 }
      Response.zero).1 hwf hq,
   { oneReduceIdle with ReducingFiles := [true, true] },
   { Phase := reducePhase, FileName := "", FileIndex := "1", NReduce := 2, NFile := 1 }, none,
   by rfl, by rfl,
   ((Dispatch_completed_terminal oneReduceIdle { Phase := mapPhase, FileIndex := 0 }
      Response.zero).2 _ _ _ (by rfl)).1.2 0 (by rfl)⟩

/-- Claim C8: `Done()` returns `true` exactly when every entry of
`ReducedFiles` is `true`, it leaves the master unchanged, and on the master
built by `MakeMaster` with `nReduce >= 1` it returns `false`. -/
theorem Done_iff_all_reduced (m : Master) (files : List String) (nReduce : Int)
    (hn : 1 ≤ nReduce) :
    ((Done m).2 = true ↔ AllTrue m.ReducedFiles) ∧ (Done m).1 = m ∧
    ∃ m0, MakeMaster files nReduce = some m0 ∧ (Done m0).2 = false := by
  refine ⟨scan_fst_iff _, rfl, ?_⟩
  have h0 : ¬ nReduce < 0 := by omega
  have hmk : MakeMaster files nReduce = some
      { NFile := (files.length : Int), NReduce := nReduce, Files := files,
        MappingFiles := List.replicate files.length false,
        MappedFiles := List.replicate files.length false,
        ReducingFiles := List.replicate nReduce.toNat false,
        ReducedFiles := List.replicate nReduce.toNat false,
        Timeout := false } := by
    simp only [MakeMaster, h0, if_false]
  refine ⟨_, hmk, ?_⟩
  obtain ⟨k, hk⟩ : ∃ k : Nat, nReduce.toNat = k + 1 := ⟨nReduce.toNat - 1, by omega⟩
  simp [Done, scan, hk, List.replicate_succ, scanFrom]

/-- Witness for C8 at `oneReduceIdle` and `MakeMaster ["a"] 2`. -/
theorem Done_iff_all_reduced_witness :
    (1 : Int) ≤ 2 ∧ (Done oneReduceIdle).2 = false ∧
    ∃ m0, MakeMaster ["a"] 2 = some m0 ∧ (Done m0).2 = false :=
  ⟨by decide, by rfl, (Done_iff_all_reduced oneReduceIdle ["a"] 2 (by decide)).2.2⟩

/-- Claim C9: for every master state and request, if `Dispatch` applied to a
zero-valued response answers with phase Done, then after the call every
entry of `ReducedFiles` is `true`, so `Done()` returns `true` on that state. -/
theorem Dispatch_done_all_reduced (m m' : Master) (q : Request) (r' : Response) (e : GoError)
    (h : Dispatch m q Response.zero = some (m', r', e)) (hp : r'.Phase = donePhase) :
    AllTrue m'.ReducedFiles ∧ (Done m').2 = true := by
  have key : AllTrue m'.ReducedFiles := by
    obtain ⟨-, hpoll | hmap | hred | ⟨rfl, rfl, -⟩⟩ := Dispatch_cases h
    · rw [(dispatchPoll_state hpoll).2.2.2.2.2.1]
      exact (dispatchPoll_phase hpoll).2 hp
    · exact absurd hp (dispatchMap_phase hmap).2
    · exact (dispatchReduce_phase hred).2 hp
    · simp [Response.zero, donePhase] at hp
  exact ⟨key, (scan_fst_iff _).2 key⟩

/-- Witness for C9: a poll on `allDoneOneOne` is answered with Done. -/
theorem Dispatch_done_all_reduced_witness :
    Dispatch allDoneOneOne { Phase := regPhase, FileIndex := -1 } Response.zero =
      some (allDoneOneOne,
            { Phase := donePhase, FileName := "", FileIndex := "-1", NReduce := -1, NFile := -1 },
            none) ∧
    AllTrue allDoneOneOne.ReducedFiles ∧ (Done allDoneOneOne).2 = true :=
  ⟨by rfl,
   Dispatch_done_all_reduced allDoneOneOne allDoneOneOne { Phase := regPhase, FileIndex := -1 }
     { Phase := donePhase, FileName := "", FileIndex := "-1", NReduce := -1, NFile := -1 } none
     (by rfl) (by rfl)⟩

/-! ## Claims on completion reports -/

theorem Dispatch_of_map (m : Master) (q : Request) (r : Response) (h : q.Phase = mapPhase) :
    Dispatch m q r = (dispatchMap m q r).map fun x => (x.1, x.2, none) := by
  unfold Dispatch
  rw [h]
  simp [mapPhase]

theorem Dispatch_of_reduce (m : Master) (q : Request) (r : Response)
    (h : q.Phase = reducePhase) :
    Dispatch m q r = (dispatchReduce m q r).map fun x => (x.1, x.2, none) := by
  unfold Dispatch
  rw [h]
  simp [mapPhase, reducePhase]

theorem Dispatch_of_poll (m : Master) (q : Request) (r : Response)
    (h : q.Phase = regPhase ∨ q.Phase = waitPhase) :
    Dispatch m q r = (dispatchPoll m r).map fun x => (x.1, x.2, none) := by
  unfold Dispatch
  have h' : q.Phase = "Register" ∨ q.Phase = "Waiting" := h
  rw [if_pos h']

/-- Claim C4, as stated, fails: on the freshly made master (map task 0 is
idle, `MappingFiles[0]` is `false`) a Map completion report for task 0 makes
the task completed, and a Reduce completion report for the idle reduce task
1 makes that task completed. -/
theorem Dispatch_report_idle_counterexample :
    MakeMaster ["a"] 2 = some freshOneTwo ∧
    freshOneTwo.MappingFiles[0]? = some false ∧ freshOneTwo.MappedFiles[0]? = some false ∧
    Dispatch freshOneTwo { Phase := mapPhase, FileIndex := 0 } Response.zero =
      some ({ freshOneTwo with MappingFiles := [true], MappedFiles := [true] },
            { Phase := mapPhase, FileName := "a", FileIndex := "0", NReduce := 2, NFile := 1 },
            none) ∧
    freshOneTwo.ReducingFiles[1]? = some false ∧ freshOneTwo.ReducedFiles[1]? = some false ∧
    Dispatch freshOneTwo { Phase := reducePhase, FileIndex := 1 } Response.zero =
      some ({ freshOneTwo with ReducedFiles := [false, true] }, Response.zero, none) := by
  refine ⟨by rfl, by rfl, by rfl, by rfl, by rfl, by rfl, by rfl⟩

/-- Claim C4 (amended): for every well-formed master state and every in-range
index `i`, a `Dispatch` call carrying a Map (respectively Reduce) completion
report for task `i` returns and leaves task `i` completed, whatever the
state of the task was before the call; the handler has no in-progress guard. -/
theorem Dispatch_report_marks_completed (m : Master) (i : Nat) (r : Response) :
    (MapWellFormed m → (i : Int) < m.NFile →
      ∃ m' r', Dispatch m { Phase := mapPhase, FileIndex := i } r = some (m', r', none) ∧
        m'.MappedFiles[i]? = some true) ∧
    (ReduceWellFormed m → (i : Int) < m.NReduce →
      ∃ m' r', Dispatch m { Phase := reducePhase, FileIndex := i } r = some (m', r', none) ∧
        m'.ReducedFiles[i]? = some true) := by
  constructor
  · rintro ⟨w1, w2, w3⟩ hi
    have hlt : i < m.MappedFiles.length := by omega
    obtain ⟨⟨m', r'⟩, hout⟩ := dispatchMap_total m { Phase := mapPhase, FileIndex := i } r
      (by omega) (by omega) (by simp) (by simpa using hlt)
    refine ⟨m', r', by rw [Dispatch_of_map _ _ _ rfl, hout]; rfl, ?_⟩
    obtain ⟨-, -, -, -, h4, -⟩ := dispatchMap_state hout
    rw [h4]
    simp [hlt]
  · rintro ⟨w4, w5⟩ hi
    have hlt : i < m.ReducedFiles.length := by omega
    obtain ⟨⟨m', r'⟩, hout⟩ := dispatchReduce_total m { Phase := reducePhase, FileIndex := i } r
      (by simp) (by simpa using hlt)
    refine ⟨m', r', by rw [Dispatch_of_reduce _ _ _ rfl, hout]; rfl, ?_⟩
    obtain ⟨-, -, -, -, -, -, h6, -⟩ := dispatchReduce_state hout
    rw [h6]
    simp [hlt]

/-- Witness for C4 on the freshly made master `freshOneTwo`, task 0. -/
theorem Dispatch_report_marks_completed_witness :
    (MapWellFormed freshOneTwo ∧ ((0 : Nat) : Int) < freshOneTwo.NFile) ∧
    ∃ m' r', Dispatch freshOneTwo { Phase := mapPhase, FileIndex := ((0 : Nat) : Int) }
        Response.zero = some (m', r', none) ∧
      m'.MappedFiles[0]? = some true :=
  have hwf : MapWellFormed freshOneTwo := by simp [MapWellFormed, freshOneTwo]
  have hi : ((0 : Nat) : Int) < freshOneTwo.NFile := by simp [freshOneTwo]
  ⟨⟨hwf, hi⟩, (Dispatch_report_marks_completed freshOneTwo 0 Response.zero).1 hwf hi⟩

/-- Claim C5: for every master state and every task `i` that is already
completed, a `Dispatch` call carrying a completion report for task `i`
returns the `nil` error, leaves `MappedFiles` and `ReducedFiles` exactly as
they were, and task `i` is still completed.  The call does return: for a
Reduce report always, for a Map report whenever the map slices are
well-formed. -/
theorem Dispatch_report_completed_noop (m : Master) (i : Nat) (r : Response) :
    (m.MappedFiles[i]? = some true →
      (∀ (m' : Master) (r' : Response) (e : GoError),
        Dispatch m { Phase := mapPhase, FileIndex := i } r = some (m', r', e) →
          e = none ∧ m'.MappedFiles = m.MappedFiles ∧ m'.ReducedFiles = m.ReducedFiles ∧
          m'.MappedFiles[i]? = some true) ∧
      (MapWellFormed m →
        ∃ m' r', Dispatch m { Phase := mapPhase, FileIndex := i } r = some (m', r', none))) ∧
    (m.ReducedFiles[i]? = some true →
      (∀ (m' : Master) (r' : Response) (e : GoError),
        Dispatch m { Phase := reducePhase, FileIndex := i } r = some (m', r', e) →
          e = none ∧ m'.MappedFiles = m.MappedFiles ∧ m'.ReducedFiles = m.ReducedFiles ∧
          m'.ReducedFiles[i]? = some true) ∧
      ∃ m' r', Dispatch m { Phase := reducePhase, FileIndex := i } r = some (m', r', none)) := by
  constructor
  · intro hdone
    have hlt := getElem?_lt_length hdone
    constructor
    · intro m' r' e h
      rw [Dispatch_of_map _ _ _ rfl] at h
      obtain ⟨⟨a, b⟩, hout, heq⟩ := Option.map_eq_some'.1 h
      simp only [Prod.mk.injEq] at heq
      obtain ⟨rfl, rfl, rfl⟩ := heq
      obtain ⟨-, -, -, -, h4, h5, -⟩ := dispatchMap_state hout
      have h4' : a.MappedFiles = m.MappedFiles := by
        rw [h4]
        exact set_true_of_getElem? (by simpa using hdone)
      exact ⟨rfl, h4', h5, by rw [h4']; exact hdone⟩
    · rintro ⟨w1, w2, w3⟩
      obtain ⟨⟨m', r'⟩, hout⟩ := dispatchMap_total m { Phase := mapPhase, FileIndex := i } r
        (by omega) (by omega) (by simp) (by simpa using hlt)
      exact ⟨m', r', by rw [Dispatch_of_map _ _ _ rfl, hout]; rfl⟩
  · intro hdone
    have hlt := getElem?_lt_length hdone
    constructor
    · intro m' r' e h
      rw [Dispatch_of_reduce _ _ _ rfl] at h
      obtain ⟨⟨a, b⟩, hout, heq⟩ := Option.map_eq_some'.1 h
      simp only [Prod.mk.injEq] at heq
      obtain ⟨rfl, rfl, rfl⟩ := heq
      obtain ⟨-, -, -, -, -, h5, h6, -⟩ := dispatchReduce_state hout
      have h6' : a.ReducedFiles = m.ReducedFiles := by
        rw [h6]
        exact set_true_of_getElem? (by simpa using hdone)
      exact ⟨rfl, h5, h6', by rw [h6']; exact hdone⟩
    · obtain ⟨⟨m', r'⟩, hout⟩ := dispatchReduce_total m { Phase := reducePhase, FileIndex := i } r
        (by simp) (by simpa using hlt)
      exact ⟨m', r', by rw [Dispatch_of_reduce _ _ _ rfl, hout]; rfl⟩

/-- Witness for C5: a late Map report for the completed map task 0 of
`oneReduceIdle`. -/
theorem Dispatch_report_completed_noop_witness :
    oneReduceIdle.MappedFiles[0]? = some true ∧ MapWellFormed oneReduceIdle ∧
    (∃ m' r', Dispatch oneReduceIdle { Phase := mapPhase, FileIndex := ((0 : Nat) : Int) }
        Response.zero = some (m', r', none)) ∧
    ({ oneReduceIdle with ReducingFiles := [true, true] } : Master).MappedFiles =
      oneReduceIdle.MappedFiles :=
  have hwf : MapWellFormed oneReduceIdle := by simp [MapWellFormed, oneReduceIdle]
  ⟨by rfl, hwf,
   ((Dispatch_report_completed_noop oneReduceIdle 0 Response.zero).1 (by rfl)).2 hwf,
   (((Dispatch_report_completed_noop oneReduceIdle 0 Response.zero).1 (by rfl)).1
      { oneReduceIdle with ReducingFiles := [true, true] }
      { Phase := reducePhase, FileName := "", FileIndex := "1", NReduce := 2, NFile := 1 }
      none (by rfl)).2.1⟩

/-! ## Claims on assignment -/

/-- Claim C2 fails on the code: `oneReduceIdle` is reached from the freshly
made master by a registration and a map report, its timeout flag is
`false`, and two consecutive polls on it are both answered with the
assignment Reduce "1"; the poll branch hands out the idle reduce task
without marking `ReducingFiles[1]`, so the state does not change. -/
theorem Dispatch_polls_same_reduce :
    runRequests freshOneTwo
        [{ Phase := regPhase, FileIndex := -1 }, { Phase := mapPhase, FileIndex := 0 }] =
      some (oneReduceIdle,
        [{ Phase := mapPhase, FileName := "a", FileIndex := "0", NReduce := 2, NFile := 1 },
         { Phase := reducePhase, FileName := "", FileIndex := "0", NReduce := 2, NFile := 1 }]) ∧
    oneReduceIdle.Timeout = false ∧
    Dispatch oneReduceIdle { Phase := regPhase, FileIndex := -1 } Response.zero =
      some (oneReduceIdle,
            { Phase := reducePhase, FileName := "", FileIndex := "1", NReduce := 2, NFile := 1 },
            none) ∧
    Dispatch oneReduceIdle { Phase := waitPhase, FileIndex := -1 } Response.zero =
      some (oneReduceIdle,
            { Phase := reducePhase, FileName := "", FileIndex := "1", NReduce := 2, NFile := 1 },
            none) := by
  refine ⟨by rfl, by rfl, by rfl, by rfl⟩

/-- Claim C3 fails on the code: from the freshly made master, worker A
registers (Map 0) and reports map 0 (Reduce 0); worker B registers and is
handed Reduce 1, which the poll branch does not mark as assigned; when B
reports reduce 1, the answer assigns reduce 1 again, although
`ReducedFiles[1]` is `true` after that call.  Every report in the run names
a task an earlier response handed out. -/
theorem runRequests_reassigns_completed_reduce :
    MakeMaster ["a"] 2 = some freshOneTwo ∧
    runRequests freshOneTwo
        [{ Phase := regPhase, FileIndex := -1 }, { Phase := mapPhase, FileIndex := 0 },
         { Phase := regPhase, FileIndex := -1 }, { Phase := reducePhase, FileIndex := 1 }] =
      some ({ oneReduceIdle with ReducingFiles := [true, true], ReducedFiles := [false, true] },
        [{ Phase := mapPhase, FileName := "a", FileIndex := "0", NReduce := 2, NFile := 1 },
         { Phase := reducePhase, FileName := "", FileIndex := "0", NReduce := 2, NFile := 1 },
         { Phase := reducePhase, FileName := "", FileIndex := "1", NReduce := 2, NFile := 1 },
         { Phase := reducePhase, FileName := "", FileIndex := "1", NReduce := 2, NFile := 1 }]) ∧
    ({ oneReduceIdle with ReducingFiles := [true, true],
                          ReducedFiles := [false, true] } : Master).ReducedFiles[1]? =
      some true ∧
    Itoa 1 = "1" := by
  refine ⟨by rfl, by rfl, by rfl, by rfl⟩

/-- Claim C7 fails on the code for Map reports: on `allDoneOneOne` (every
task assigned and completed) a poll with Register or Waiting and a Reduce
report for task 0 are answered with Done, but a Map report for the in-range
task 0 matches none of the cases 0-2 of its branch and leaves the
zero-valued response untouched, so its phase is the empty string. -/
theorem Dispatch_map_report_all_done_unset :
    (Dispatch allDoneOneOne { Phase := regPhase, FileIndex := -1 } Response.zero).map
        (fun out => out.2.1.Phase) = some donePhase ∧
    (Dispatch allDoneOneOne { Phase := waitPhase, FileIndex := -1 } Response.zero).map
        (fun out => out.2.1.Phase) = some donePhase ∧
    (Dispatch allDoneOneOne { Phase := reducePhase, FileIndex := 0 } Response.zero).map
        (fun out => out.2.1.Phase) = some donePhase ∧
    Dispatch allDoneOneOne { Phase := mapPhase, FileIndex := 0 } Response.zero =
      some (allDoneOneOne, Response.zero, none) ∧
    Response.zero.Phase = "" := by
  refine ⟨by rfl, by rfl, by rfl, by rfl, by rfl⟩

/-- Claim C10: on a master whose map slices and `Files` have length `NFile`
and in which `i` is the least index with `MappingFiles[i]` false, a request
with phase Register, Waiting, or Map with an in-range index is answered with
phase Map, `FileIndex` the decimal string of `i`, `FileName = Files[i]`,
`NReduce = m.NReduce` and `NFile = m.NFile`; afterwards `MappingFiles[i]` is
`true`, every other entry of `MappingFiles`, all of `ReducingFiles` and
`ReducedFiles`, and `Timeout` are unchanged, and `MappedFiles` differs at
most at the reported index. -/
theorem Dispatch_assigns_least_idle_map (m : Master) (q : Request) (r : Response) (i : Nat)
    (hwf : MapWellFormed m) (hi : LeastFalse m.MappingFiles i)
    (hq : q.Phase = regPhase ∨ q.Phase = waitPhase ∨
      (q.Phase = mapPhase ∧ 0 ≤ q.FileIndex ∧ q.FileIndex < m.NFile)) :
    ∃ (name : String) (m' : Master),
      m.Files[i]? = some name ∧
      Dispatch m q r =
        some (m', { Phase := mapPhase, FileName := name, FileIndex := Nat.repr i,
                    NReduce := m.NReduce, NFile := m.NFile }, none) ∧
      m' = { m with
              MappingFiles := m.MappingFiles.set i true
              MappedFiles := if q.Phase = mapPhase then m.MappedFiles.set q.FileIndex.toNat true
                             else m.MappedFiles } ∧
      m'.MappingFiles[i]? = some true ∧
      (∀ j : Nat, j ≠ i → m'.MappingFiles[j]? = m.MappingFiles[j]?) ∧
      m'.ReducingFiles = m.ReducingFiles ∧ m'.ReducedFiles = m.ReducedFiles ∧
      m'.Timeout = m.Timeout ∧
      (∀ j : Nat, ¬ (q.Phase = mapPhase ∧ j = q.FileIndex.toNat) →
        m'.MappedFiles[j]? = m.MappedFiles[j]?) := by
  obtain ⟨w1, w2, w3⟩ := hwf
  have hlt : i < m.MappingFiles.length := hi.lt_length
  have hscan := scan_of_leastFalse hi
  obtain ⟨name, hget, hname⟩ := getIdx_isSome (s := m.Files) (j := i) (by omega)
  have hset := setIdx_natCast m.MappingFiles i true hlt
  have facts : ∀ mapped : List Bool,
      (∀ j : Nat, ¬ (q.Phase = mapPhase ∧ j = q.FileIndex.toNat) →
        mapped[j]? = m.MappedFiles[j]?) →
      ({ m with MappingFiles := m.MappingFiles.set i true, MappedFiles := mapped } :
          Master).MappingFiles[i]? = some true ∧
      (∀ j : Nat, j ≠ i →
        ({ m with MappingFiles := m.MappingFiles.set i true, MappedFiles := mapped } :
          Master).MappingFiles[j]? = m.MappingFiles[j]?) ∧
      ({ m with MappingFiles := m.MappingFiles.set i true, MappedFiles := mapped } :
          Master).ReducingFiles = m.ReducingFiles ∧
      ({ m with MappingFiles := m.MappingFiles.set i true, MappedFiles := mapped } :
          Master).ReducedFiles = m.ReducedFiles ∧
      ({ m with MappingFiles := m.MappingFiles.set i true, MappedFiles := mapped } :
          Master).Timeout = m.Timeout ∧
      (∀ j : Nat, ¬ (q.Phase = mapPhase ∧ j = q.FileIndex.toNat) →
        ({ m with MappingFiles := m.MappingFiles.set i true, MappedFiles := mapped } :
          Master).MappedFiles[j]? = m.MappedFiles[j]?) := by
    intro mapped hmapped
    refine ⟨by simp [hlt], ?_, rfl, rfl, rfl, hmapped⟩
    intro j hj
    simp only
    rw [List.getElem?_set_ne (Ne.symm hj)]
  by_cases hmap : q.Phase = mapPhase
  · have hrange : 0 ≤ q.FileIndex ∧ q.FileIndex < m.NFile := by
      rcases hq with h | h | h
      · rw [hmap] at h; exact absurd h (by decide)
      · rw [hmap] at h; exact absurd h (by decide)
      · exact h.2
    have hsetm : setIdx m.MappedFiles q.FileIndex true =
        some (m.MappedFiles.set q.FileIndex.toNat true) := by
      have : q.FileIndex.toNat < m.MappedFiles.length := by omega
      simp [setIdx, hrange.1, this]
    refine ⟨name, _, hname, ?_, rfl, ?_⟩
    · rw [Dispatch_of_map _ _ _ hmap]
      unfold dispatchMap
      simp only [hsetm, Option.some_bind, hscan]
      simp [hset, hget, hmap, Itoa]
    · rw [if_pos hmap]
      apply facts
      intro j hj
      rw [List.getElem?_set_ne]
      intro hc
      exact hj ⟨hmap, hc.symm⟩
  · have hpoll : q.Phase = regPhase ∨ q.Phase = waitPhase := by
      rcases hq with h | h | h
      · exact Or.inl h
      · exact Or.inr h
      · exact absurd h.1 hmap
    refine ⟨name, _, hname, ?_, rfl, ?_⟩
    · rw [Dispatch_of_poll _ _ _ hpoll]
      unfold dispatchPoll
      simp only [hscan]
      simp [hset, hget, hmap, Itoa]
    · rw [if_neg hmap]
      exact facts _ (fun _ _ => rfl)

/-- Witness for C10: a registration on the freshly made `freshOneTwo` is
handed map task 0. -/
theorem Dispatch_assigns_least_idle_map_witness :
    MapWellFormed freshOneTwo ∧ LeastFalse freshOneTwo.MappingFiles 0 ∧
    ∃ (name : String) (m' : Master),
      freshOneTwo.Files[0]? = some name ∧
      Dispatch freshOneTwo { Phase := regPhase, FileIndex := -1 } Response.zero =
        some (m', { Phase := mapPhase, FileName := name, FileIndex := Nat.repr 0,
                    NReduce := freshOneTwo.NReduce, NFile := freshOneTwo.NFile }, none) ∧
      m'.MappingFiles[0]? = some true :=
  have hwf : MapWellFormed freshOneTwo := by simp [MapWellFormed, freshOneTwo]
  have hi : LeastFalse freshOneTwo.MappingFiles 0 :=
    ⟨by rfl, fun j hj => absurd hj (Nat.not_lt_zero j)⟩
  have h := Dispatch_assigns_least_idle_map freshOneTwo { Phase := regPhase, FileIndex := -1 }
    Response.zero 0 hwf hi (Or.inl rfl)
  ⟨hwf, hi, h.elim fun name h' => h'.elim fun m' hm =>
    ⟨name, m', hm.1, hm.2.1, hm.2.2.2.1⟩⟩

/-! ## Claims on the phase change and on the timeout flag -/

theorem scanFrom_of_allTrue (s : List Bool) (k : Nat) (h : AllTrue s) :
    scanFrom s k = (true, -1) := by
  induction s generalizing k with
  | nil => rfl
  | cons v vs ih =>
    have hv : v = true := h v (List.mem_cons_self _ _)
    subst hv
    have hvs : AllTrue vs := fun b hb => h b (List.mem_cons_of_mem _ hb)
    simpa [scanFrom] using ih (k + 1) hvs

theorem scan_of_allTrue {s : List Bool} (h : AllTrue s) : scan s = (true, -1) :=
  scanFrom_of_allTrue s 0 h

theorem exists_leastFalse {s : List Bool} (h : ¬ AllTrue s) : ∃ i, LeastFalse s i := by
  have hf : (scan s).1 = false := by
    cases hs : (scan s).1
    · rfl
    · exact absurd ((scan_fst_iff s).1 hs) h
  obtain ⟨j, hj, -⟩ := scan_false s hf
  exact ⟨j, hj⟩

theorem allTrue_set_of_others {s : List Bool} {i : Nat}
    (h : ∀ j : Nat, j ≠ i → j < s.length → s[j]? = some true) : AllTrue (s.set i true) := by
  intro b hb
  obtain ⟨j, hj⟩ := List.getElem?_of_mem hb
  by_cases hij : j = i
  · subst hij
    have hlt : j < (s.set j true).length := getElem?_lt_length hj
    rw [List.getElem?_eq_getElem hlt, List.getElem_set_self] at hj
    exact (Option.some.inj hj).symm
  · rw [List.getElem?_set_ne (Ne.symm hij)] at hj
    have hlt : j < s.length := getElem?_lt_length hj
    rw [h j hij hlt] at hj
    exact (Option.some.inj hj).symm

/-- Claim C11: on a master whose map slices and `Files` have length `NFile`,
in which every map task is assigned, every map task other than `i` is
completed and `r` is the least index with `ReducingFiles[r]` false, the Map
completion report for `i` is answered in the same call with phase Reduce,
`FileIndex` the decimal string of `r`, empty `FileName`, `NReduce = m.NReduce`
and `NFile = m.NFile`; the call completes map task `i` and marks
`ReducingFiles[r]`. -/
theorem Dispatch_last_map_report_assigns_reduce (m : Master) (i r : Nat) (resp : Response)
    (hwf : MapWellFormed m) (hi : (i : Int) < m.NFile)
    (hassigned : AllTrue m.MappingFiles)
    (hothers : ∀ j : Nat, j ≠ i → j < m.MappedFiles.length → m.MappedFiles[j]? = some true)
    (hr : LeastFalse m.ReducingFiles r) :
    ∃ m' : Master,
      Dispatch m { Phase := mapPhase, FileIndex := i } resp =
        some (m', { Phase := reducePhase, FileName := "", FileIndex := Nat.repr r,
                    NReduce := m.NReduce, NFile := m.NFile }, none) ∧
      m' = { m with MappedFiles := m.MappedFiles.set i true
                    ReducingFiles := m.ReducingFiles.set r true } ∧
      m'.ReducingFiles[r]? = some true ∧ m'.MappedFiles[i]? = some true := by
  obtain ⟨w1, w2, w3⟩ := hwf
  have hlt : i < m.MappedFiles.length := by omega
  have hrlt : r < m.ReducingFiles.length := hr.lt_length
  have hsetm : setIdx m.MappedFiles (i : Int) true = some (m.MappedFiles.set i true) :=
    setIdx_natCast _ _ _ hlt
  have hsa := scan_of_allTrue hassigned
  have hsb := scan_of_allTrue (allTrue_set_of_others hothers)
  have hsc := scan_of_leastFalse hr
  have hsetr := setIdx_natCast m.ReducingFiles r true hrlt
  refine ⟨_, ?_, rfl, by simp [hrlt], by simp [hlt]⟩
  rw [Dispatch_of_map _ _ _ rfl]
  unfold dispatchMap
  simp only [hsetm, Option.some_bind, hsa, hsb, hsc]
  simp [hsetr, Itoa]

/-- Witness for C11 on `lastMapRunning`: the report for map task 0 is
answered with Reduce "0". -/
theorem Dispatch_last_map_report_assigns_reduce_witness :
    MapWellFormed lastMapRunning ∧ AllTrue lastMapRunning.MappingFiles ∧
    LeastFalse lastMapRunning.ReducingFiles 0 ∧
    ∃ m' : Master,
      Dispatch lastMapRunning { Phase := mapPhase, FileIndex := ((0 : Nat) : Int) }
          Response.zero =
        some (m', { Phase := reducePhase, FileName := "", FileIndex := Nat.repr 0,
                    NReduce := lastMapRunning.NReduce, NFile := lastMapRunning.NFile }, none) ∧
      m'.ReducingFiles[0]? = some true :=
  have hwf : MapWellFormed lastMapRunning := by simp [MapWellFormed, lastMapRunning]
  have hall : AllTrue lastMapRunning.MappingFiles := by
    intro b hb
    simpa [lastMapRunning] using hb
  have hr : LeastFalse lastMapRunning.ReducingFiles 0 :=
    ⟨by rfl, fun j hj => absurd hj (Nat.not_lt_zero j)⟩
  have h := Dispatch_last_map_report_assigns_reduce lastMapRunning 0 0 Response.zero hwf
    (by simp [lastMapRunning]) hall
    (fun j hj hlt => by
      simp only [lastMapRunning, List.length_singleton] at hlt
      omega) hr
  ⟨hwf, hall, hr, h.elim fun m' hm => ⟨m', hm.1, hm.2.2.1⟩⟩

/-- Claim C17 fails on the code: starting from `MakeMaster ["a"] 1`, worker
A registers (Map 0) and stalls; worker B registers (Waiting), polls again
(Map 0 after the timeout toggle), reports map 0 (Reduce 0) and reports
reduce 0 (Done); A's late report for map 0 then reaches a master in which
everything is assigned and completed, none of the cases 0-2 of the Map
branch applies, and the zero-valued response comes back with its phase
still the empty string.  The master is well-formed and the index in range.
A Reduce report for task 0 on the fresh `freshOneTwo` is not answered with
a phase either. -/
theorem runRequests_late_map_report_phase_unset :
    MakeMaster ["a"] 1 = some freshOneOne ∧
    runRequests freshOneOne
        [{ Phase := regPhase, FileIndex := -1 }, { Phase := regPhase, FileIndex := -1 },
         { Phase := waitPhase, FileIndex := -1 }, { Phase := mapPhase, FileIndex := 0 },
         { Phase := reducePhase, FileIndex := 0 }, { Phase := mapPhase, FileIndex := 0 }] =
      some (allDoneOneOne,
        [{ Phase := mapPhase, FileName := "a", FileIndex := "0", NReduce := 1, NFile := 1 },
         { Phase := waitPhase, FileName := "", FileIndex := "-1", NReduce := -1, NFile := 0 },
         { Phase := mapPhase, FileName := "a", FileIndex := "0", NReduce := 1, NFile := 1 },
         { Phase := reducePhase, FileName := "", FileIndex := "0", NReduce := 1, NFile := 1 },
         { Phase := donePhase, FileName := "", FileIndex := "-1", NReduce := -1, NFile := 0 },
         { Phase := "", FileName := "", FileIndex := "", NReduce := 0, NFile := 0 }]) ∧
    WellFormed allDoneOneOne ∧
    InRange allDoneOneOne { Phase := mapPhase, FileIndex := 0 } ∧
    (Dispatch freshOneTwo { Phase := reducePhase, FileIndex := 0 } Response.zero).map
        (fun out => out.2.1.Phase) = some "" := by
  refine ⟨by rfl, by rfl, ?_, ?_, by rfl⟩
  · simp [WellFormed, MapWellFormed, ReduceWellFormed, allDoneOneOne]
  · simp [InRange, allDoneOneOne, mapPhase, reducePhase]

/-- A table no run produces shows why the toggle of the reduce phase needs
every map task marked assigned: on `completedUnassigned` (the map task
completed but never assigned) a poll is answered through case 0 with the
assignment Map "0", marks `MappingFiles[0]` and leaves the timeout flag
`false`. -/
theorem Dispatch_poll_completed_unassigned_table :
    WellFormed completedUnassigned ∧
    AllTrue completedUnassigned.MappedFiles ∧ AllTrue completedUnassigned.ReducingFiles ∧
    completedUnassigned.ReducedFiles[0]? = some false ∧ completedUnassigned.Timeout = false ∧
    Dispatch completedUnassigned { Phase := regPhase, FileIndex := -1 } Response.zero =
      some ({ completedUnassigned with MappingFiles := [true] },
            { Phase := mapPhase, FileName := "a", FileIndex := "0", NReduce := 1, NFile := 1 },
            none) := by
  refine ⟨?_, ?_, ?_, by rfl, by rfl, by rfl⟩
  · simp [WellFormed, MapWellFormed, ReduceWellFormed, completedUnassigned]
  · intro b hb
    simpa [completedUnassigned] using hb
  · intro b hb
    simpa [completedUnassigned] using hb

/-- The timeout toggle of a poll on a table whose map slices and `Files` have
length `NFile` and in which every map task is assigned: with some map task
not completed the poll answers Waiting and sets the flag, or clears the flag
and answers Map with the least index whose `MappedFiles` entry is false;
with every map task completed, every reduce task assigned and some reduce
task not completed the same holds with Reduce and `ReducedFiles`. -/
theorem Dispatch_poll_toggle_of_assigned (m : Master) (q : Request) (resp : Response)
    (hwf : MapWellFormed m) (hq : q.Phase = regPhase ∨ q.Phase = waitPhase)
    (hassigned : AllTrue m.MappingFiles) :
    (¬ AllTrue m.MappedFiles →
      ∃ i : Nat, LeastFalse m.MappedFiles i ∧
        (m.Timeout = false →
          Dispatch m q resp =
            some ({ m with Timeout := true },
                  { resp with Phase := waitPhase, FileIndex := "-1", FileName := "",
                              NReduce := -1 }, none)) ∧
        (m.Timeout = true →
          ∃ name, m.Files[i]? = some name ∧
            Dispatch m q resp =
              some ({ m with Timeout := false },
                    { Phase := mapPhase, FileName := name, FileIndex := Nat.repr i,
                      NReduce := m.NReduce, NFile := m.NFile }, none))) ∧
    (AllTrue m.MappedFiles → AllTrue m.ReducingFiles → ¬ AllTrue m.ReducedFiles →
      ∃ i : Nat, LeastFalse m.ReducedFiles i ∧
        (m.Timeout = false →
          Dispatch m q resp =
            some ({ m with Timeout := true },
                  { Phase := waitPhase, FileName := "", FileIndex := "-1", NReduce := -1,
                    NFile := -1 }, none)) ∧
        (m.Timeout = true →
          Dispatch m q resp =
            some ({ m with Timeout := false },
                  { Phase := reducePhase, FileName := "", FileIndex := Nat.repr i,
                    NReduce := m.NReduce, NFile := m.NFile }, none))) := by
  obtain ⟨w1, w2, w3⟩ := hwf
  have hsa := scan_of_allTrue hassigned
  constructor
  · intro hnot
    obtain ⟨i, hi⟩ := exists_leastFalse hnot
    have hsb := scan_of_leastFalse hi
    have hlt := hi.lt_length
    obtain ⟨name, hget, hname⟩ := getIdx_isSome (s := m.Files) (j := i) (by omega)
    refine ⟨i, hi, ?_, ?_⟩
    · intro ht
      rw [Dispatch_of_poll _ _ _ hq]
      unfold dispatchPoll
      simp only [hsa, hsb]
      simp [ht, Itoa]
      rfl
    · intro ht
      refine ⟨name, hname, ?_⟩
      rw [Dispatch_of_poll _ _ _ hq]
      unfold dispatchPoll
      simp only [hsa, hsb]
      simp [ht, hget, Itoa]
  · intro hmapped hreducing hnot
    obtain ⟨i, hi⟩ := exists_leastFalse hnot
    have hsb := scan_of_allTrue hmapped
    have hsc := scan_of_allTrue hreducing
    have hsd := scan_of_leastFalse hi
    refine ⟨i, hi, ?_, ?_⟩
    · intro ht
      rw [Dispatch_of_poll _ _ _ hq]
      unfold dispatchPoll
      simp only [hsa, hsb, hsc, hsd]
      simp [ht, Itoa]
      rfl
    · intro ht
      rw [Dispatch_of_poll _ _ _ hq]
      unfold dispatchPoll
      simp only [hsa, hsb, hsc, hsd]
      simp [ht, Itoa]

/-! ## Claims on the worker: hashing, files and failures -/

theorem fnv32a_lt (bytes : List Nat) : fnv32a bytes < 2 ^ 32 := by
  unfold fnv32a
  have key : ∀ (l : List Nat) (h : Nat), h < 2 ^ 32 →
      l.foldl (fun hash c => ((hash ^^^ c) * 16777619) % 2 ^ 32) h < 2 ^ 32 := by
    intro l
    induction l with
    | nil => intro h hh; simpa using hh
    | cons c cs ih =>
      intro h _
      simp only [List.foldl_cons]
      exact ih _ (Nat.mod_lt _ (by norm_num))
  exact key bytes 2166136261 (by norm_num)

theorem ihash_eq_mod (key : String) : ihash key = ((fnv32a (keyBytes key) % 2 ^ 31 : Nat) : Int) := by
  unfold ihash
  have h : (0x7fffffff : Nat) = 2 ^ 31 - 1 := by norm_num
  rw [h, Nat.and_pow_two_sub_one_eq_mod]

theorem ihash_nonneg (key : String) : 0 ≤ ihash key := by
  rw [ihash_eq_mod]
  exact Int.natCast_nonneg _

theorem ihash_lt (key : String) : ihash key < 2 ^ 31 := by
  rw [ihash_eq_mod]
  have : fnv32a (keyBytes key) % 2 ^ 31 < 2 ^ 31 := Nat.mod_lt _ (by norm_num)
  exact_mod_cast this

theorem bucketOf_of_pos (key : String) {nReduce : Int} (h : 1 ≤ nReduce) :
    bucketOf key nReduce = some (Int.tmod (ihash key) nReduce).toNat ∧
    (((Int.tmod (ihash key) nReduce).toNat : Nat) : Int) = Int.tmod (ihash key) nReduce := by
  have h0 : 0 ≤ Int.tmod (ihash key) nReduce := Int.tmod_nonneg _ (ihash_nonneg key)
  have h1 : Int.tmod (ihash key) nReduce < nReduce := Int.tmod_lt_of_pos _ (by omega)
  have hne : nReduce ≠ 0 := by omega
  refine ⟨?_, Int.toNat_of_nonneg h0⟩
  unfold bucketOf
  simp [hne, h0, h1]

/-- Claim C19: for every key and every `nReduce >= 1`, `ihash(key)` is the
32-bit FNV-1a hash of the key's bytes with the top bit cleared (the hash is
below `2^32` and `ihash` is its remainder modulo `2^31`), so
`0 <= ihash(key) < 2^31`, and `ihash(key) % nReduce` lies in `[0, nReduce)`:
the encoder index of the map step is in range. -/
theorem ihash_bucket_in_range (key : String) (nReduce : Int) (h : 1 ≤ nReduce) :
    fnv32a (keyBytes key) < 2 ^ 32 ∧
    ihash key = ((fnv32a (keyBytes key) % 2 ^ 31 : Nat) : Int) ∧
    0 ≤ ihash key ∧ ihash key < 2 ^ 31 ∧
    0 ≤ Int.tmod (ihash key) nReduce ∧ Int.tmod (ihash key) nReduce < nReduce ∧
    ∃ b : Nat, bucketOf key nReduce = some b ∧ (b : Int) = Int.tmod (ihash key) nReduce :=
  ⟨fnv32a_lt _, ihash_eq_mod key, ihash_nonneg key, ihash_lt key,
   Int.tmod_nonneg _ (ihash_nonneg key), Int.tmod_lt_of_pos _ (by omega),
   _, (bucketOf_of_pos key h).1, (bucketOf_of_pos key h).2⟩

/-- Witness for C19: the key "a" hashes to 1678518572, bucket 2 of 10. -/
theorem ihash_bucket_in_range_witness :
    (1 : Int) ≤ 10 ∧ ihash "a" = 1678518572 ∧ bucketOf "a" 10 = some 2 ∧
    Int.tmod (ihash "a") 10 < 10 :=
  ⟨by decide, by rfl, by rfl, (ihash_bucket_in_range "a" 10 (by decide)).2.2.2.2.2.1⟩

/-- Claim C12 fails on the code: for the map output `[("a","1"), ("a","2")]`
and one reduce bucket, whichever of the two orders the sort leaves, the
encode loop writes the first pair of the run twice (`output` is built from
`intermediate[i]` and encoded once for every `j`), so one emitted pair is
dropped and the other duplicated. -/
theorem mapRecords_repeats_first_value :
    mapRecords [{ Key := "a", Value := "1" }, { Key := "a", Value := "2" }] 1 =
      some [(0, { Key := "a", Value := "1" }), (0, { Key := "a", Value := "1" })] ∧
    mapRecords [{ Key := "a", Value := "2" }, { Key := "a", Value := "1" }] 1 =
      some [(0, { Key := "a", Value := "2" }), (0, { Key := "a", Value := "2" })] ∧
    ¬ List.Perm
        [({ Key := "a", Value := "1" } : KeyValue), { Key := "a", Value := "1" }]
        [{ Key := "a", Value := "1" }, { Key := "a", Value := "2" }] ∧
    ¬ List.Perm
        [({ Key := "a", Value := "2" } : KeyValue), { Key := "a", Value := "2" }]
        [{ Key := "a", Value := "1" }, { Key := "a", Value := "2" }] := by
  refine ⟨by rfl, by rfl, by decide, by decide⟩

/-- Claim C15 fails on the code: with every `os.Open` of an intermediate file
failing, the reduce attempt for task 0 leaves the read loop with `break`,
goes on with an empty `kva`, creates the output file and sends the Reduce
completion report for task 0; with every `Encode` failing, the map attempt
for task 0 only prints the errors and sends the Map completion report. -/
theorem workerStep_reports_after_failure :
    failingEnv.openIntermediate (intermediateName 0 0) = none ∧
    workerStep failingEnv reduceZero =
      { ops := [FsOp.create "mr-out-0"],
        action := Action.send { Phase := reducePhase, FileIndex := 0 } } ∧
    failingEnv.encodeOk (intermediateName 0 0) { Key := "a", Value := "1" } = false ∧
    workerStep failingEnv mapZero =
      { ops := [FsOp.create "mr-0-0"],
        action := Action.send { Phase := mapPhase, FileIndex := 0 } } := by
  refine ⟨by rfl, by rfl, by rfl, by rfl⟩

/-- Claim C16, as stated, fails: the map attempt for task 0 creates the
intermediate file directly as `mr-0-0` and encodes into it, the reduce
attempt for task 0 creates the output file directly as `mr-out-0`; neither
performs a rename. -/
theorem workerStep_creates_final_names_counterexample :
    (workerStep sampleEnv mapZero).ops =
      [FsOp.create "mr-0-0", FsOp.encode "mr-0-0" { Key := "a", Value := "1" },
       FsOp.encode "mr-0-0" { Key := "b", Value := "1" }] ∧
    (workerStep sampleEnv reduceZero).ops = [FsOp.create "mr-out-0"] := by
  refine ⟨by rfl, by rfl⟩

/-! ## Claims on the worker: partitioning and grouping -/

theorem map_key_takeWhile (k : String) (l : List KeyValue) :
    (l.takeWhile fun x => x.Key == k).map (fun x => x.Key) =
      (l.takeWhile fun x => x.Key == k).map (fun _ => k) := by
  apply List.map_congr_left
  intro x hx
  have := List.mem_takeWhile_imp hx
  simpa using this

theorem length_dropWhile_le_length (p : KeyValue → Bool) (l : List KeyValue) :
    (l.dropWhile p).length ≤ l.length :=
  (List.dropWhile_sublist p).length_le

/-- The encode loop on `nReduce >= 1` buckets does not panic, writes one
record per element of `intermediate`, with the keys of `intermediate` in
order, each to the bucket its key hashes to. -/
theorem encodeLoop_keys (nReduce : Int) (hn : 1 ≤ nReduce) :
    ∀ (fuel : Nat) (l : List KeyValue), l.length ≤ fuel →
      ∃ records, encodeLoop nReduce fuel l = some records ∧
        records.map (fun r => r.2.Key) = l.map (fun x => x.Key) ∧
        ∀ r ∈ records, bucketOf r.2.Key nReduce = some r.1 := by
  intro fuel
  induction fuel with
  | zero =>
    intro l hl
    have : l = [] := List.length_eq_zero.1 (by omega)
    subst this
    exact ⟨[], rfl, rfl, by simp⟩
  | succ fuel ih =>
    intro l hl
    cases l with
    | nil => exact ⟨[], rfl, rfl, by simp⟩
    | cons kv rest =>
      have hb := (bucketOf_of_pos kv.Key hn).1
      have hlen : (rest.dropWhile fun x => x.Key == kv.Key).length ≤ fuel := by
        have := length_dropWhile_le_length (fun x => x.Key == kv.Key) rest
        simp only [List.length_cons] at hl
        omega
      obtain ⟨more, hmore, hkeys, hbuckets⟩ := ih _ hlen
      have heq : encodeLoop nReduce (fuel + 1) (kv :: rest) =
          some ((kv :: rest.takeWhile fun x => x.Key == kv.Key).map
            (fun _ => ((Int.tmod (ihash kv.Key) nReduce).toNat, kv)) ++ more) := by
        simp only [encodeLoop, hb, hmore, Option.some_bind, Option.map_some']
      refine ⟨_, heq, ?_, ?_⟩
      · have h1 : ((fun r : Nat × KeyValue => r.2.Key) ∘
            fun _ : KeyValue => ((Int.tmod (ihash kv.Key) nReduce).toNat, kv)) =
            fun _ => kv.Key := rfl
        rw [List.map_append, hkeys, List.map_map, h1, List.map_cons, ← map_key_takeWhile,
          List.cons_append, ← List.map_append, List.takeWhile_append_dropWhile, List.map_cons]
      · intro r hr
        rcases List.mem_append.1 hr with hr | hr
        · obtain ⟨_, -, rfl⟩ := List.mem_map.1 hr
          exact hb
        · exact hbuckets r hr

/-- The encode loop on any order `intermediate` the sort may leave `kva` in,
with `nReduce >= 1`: it returns; every record is in the bucket
`ihash(k) % nReduce` of its key `k`, which is a key of `kva`; every key of
`kva` occurs in that bucket; records with the same key share a bucket; and
there is one record per element of `kva`. -/
theorem mapRecords_keys_in_hash_bucket (kva intermediate : List KeyValue) (nReduce : Int)
    (hn : 1 ≤ nReduce) (hperm : intermediate.Perm kva) :
    ∃ records, mapRecords intermediate nReduce = some records ∧
      (∀ r ∈ records, (r.1 : Int) = Int.tmod (ihash r.2.Key) nReduce ∧
        r.2.Key ∈ kva.map fun x => x.Key) ∧
      (∀ x ∈ kva, ∃ r ∈ records, r.2.Key = x.Key ∧
        (r.1 : Int) = Int.tmod (ihash x.Key) nReduce) ∧
      (∀ r ∈ records, ∀ r' ∈ records, r.2.Key = r'.2.Key → r.1 = r'.1) ∧
      records.length = kva.length := by
  obtain ⟨records, hrec, hkeys, hbuckets⟩ :=
    encodeLoop_keys nReduce hn intermediate.length intermediate le_rfl
  have hb : ∀ r ∈ records, (r.1 : Int) = Int.tmod (ihash r.2.Key) nReduce := by
    intro r hr
    have h1 := hbuckets r hr
    rw [(bucketOf_of_pos r.2.Key hn).1] at h1
    rw [← Option.some.inj h1]
    exact (bucketOf_of_pos r.2.Key hn).2
  have hmemkeys : ∀ k, k ∈ records.map (fun r => r.2.Key) ↔ k ∈ kva.map fun x => x.Key := by
    intro k
    rw [hkeys]
    exact (hperm.map _).mem_iff
  refine ⟨records, hrec, ?_, ?_, ?_, ?_⟩
  · intro r hr
    exact ⟨hb r hr, (hmemkeys _).1 (List.mem_map_of_mem _ hr)⟩
  · intro x hx
    obtain ⟨r, hr, hk⟩ := List.mem_map.1 ((hmemkeys x.Key).2 (List.mem_map_of_mem _ hx))
    exact ⟨r, hr, hk, by rw [← hk]; exact hb r hr⟩
  · intro r hr r' hr' hk
    have h1 := hb r hr
    have h2 := hb r' hr'
    rw [hk] at h1
    omega
  · have := congrArg List.length hkeys
    simp only [List.length_map] at this
    rw [this]
    exact hperm.length_eq

theorem SortedByKey.tail {kv : KeyValue} {rest : List KeyValue} (h : SortedByKey (kv :: rest)) :
    SortedByKey rest := (List.pairwise_cons.1 h).2

theorem SortedByKey.dropWhile {l : List KeyValue} (h : SortedByKey l) (p : KeyValue → Bool) :
    SortedByKey (l.dropWhile p) := List.Pairwise.sublist (List.dropWhile_sublist p) h

theorem SortedByKey.head_le {kv : KeyValue} {rest : List KeyValue} (h : SortedByKey (kv :: rest))
    {x : KeyValue} (hx : x ∈ rest) : kv.Key ≤ x.Key :=
  not_lt.1 ((List.pairwise_cons.1 h).1 x hx)

/-- In a key-sorted list, everything after the run of the first key has a
strictly larger key. -/
theorem SortedByKey.lt_of_mem_dropWhile {kv : KeyValue} {rest : List KeyValue}
    (h : SortedByKey (kv :: rest)) {x : KeyValue}
    (hx : x ∈ rest.dropWhile fun y => y.Key == kv.Key) : kv.Key < x.Key := by
  have hsorted := h.tail.dropWhile (fun y => y.Key == kv.Key)
  cases hd : rest.dropWhile (fun y => y.Key == kv.Key) with
  | nil => rw [hd] at hx; simp at hx
  | cons d ds =>
    have hdmem : d ∈ rest := by
      have : d ∈ rest.dropWhile (fun y => y.Key == kv.Key) := by rw [hd]; exact List.mem_cons_self _ _
      exact (List.dropWhile_sublist _).subset this
    have hdne : d.Key ≠ kv.Key := by
      have hnot := List.head_dropWhile_not (fun y => y.Key == kv.Key) rest
        (by rw [hd]; exact List.cons_ne_nil _ _)
      simp only [hd, List.head_cons] at hnot
      simpa using hnot
    have hdlt : kv.Key < d.Key := lt_of_le_of_ne (h.head_le hdmem) (Ne.symm hdne)
    rw [hd] at hx hsorted
    rcases List.mem_cons.1 hx with rfl | hx
    · exact hdlt
    · exact lt_of_lt_of_le hdlt (hsorted.head_le hx)

theorem filter_key_takeWhile (k : String) (l : List KeyValue) :
    (l.takeWhile fun x => x.Key == k).filter (fun x => x.Key == k) =
      l.takeWhile fun x => x.Key == k :=
  List.filter_eq_self.2 fun _ hx => List.mem_takeWhile_imp (p := fun x : KeyValue => x.Key == k) hx

theorem filter_key_run {kv : KeyValue} {rest : List KeyValue} (h : SortedByKey (kv :: rest)) :
    (kv :: rest).filter (fun x => x.Key == kv.Key) =
      kv :: rest.takeWhile fun x => x.Key == kv.Key := by
  have hdrop : (rest.dropWhile fun x => x.Key == kv.Key).filter (fun x => x.Key == kv.Key) = [] := by
    rw [List.filter_eq_nil_iff]
    intro x hx
    have := h.lt_of_mem_dropWhile hx
    simpa using ne_of_gt this
  have hsplit := List.takeWhile_append_dropWhile (fun x => x.Key == kv.Key) rest
  rw [List.filter_cons_of_pos (by simp)]
  congr 1
  conv_lhs => rw [← hsplit]
  rw [List.filter_append, filter_key_takeWhile, hdrop, List.append_nil]

theorem filter_key_later {kv : KeyValue} {rest : List KeyValue} {k : String}
    (hk : kv.Key < k) :
    (kv :: rest).filter (fun x => x.Key == k) =
      (rest.dropWhile fun x => x.Key == kv.Key).filter (fun x => x.Key == k) := by
  have hsplit := List.takeWhile_append_dropWhile (fun x => x.Key == kv.Key) rest
  have hne : kv.Key ≠ k := ne_of_lt hk
  have htake : (rest.takeWhile fun x => x.Key == kv.Key).filter (fun x => x.Key == k) = [] := by
    rw [List.filter_eq_nil_iff]
    intro x hx
    have hxk : x.Key = kv.Key := by simpa using List.mem_takeWhile_imp hx
    simpa [hxk] using hne
  rw [List.filter_cons_of_neg (by simpa using hne)]
  conv_lhs => rw [← hsplit]
  rw [List.filter_append, htake, List.nil_append]

/-- The grouping loop on a key-sorted list: the keys of the calls come from
the list and are strictly ascending, every key of the list gets a call, and
the values of a call are those of all elements with its key. -/
theorem groupLoop_spec :
    ∀ (fuel : Nat) (l : List KeyValue), l.length ≤ fuel → SortedByKey l →
      (∀ c ∈ groupLoop fuel l, c.1 ∈ l.map fun x => x.Key) ∧
      ((groupLoop fuel l).map fun c => c.1).Pairwise (fun a b => a < b) ∧
      (∀ x ∈ l, x.Key ∈ (groupLoop fuel l).map fun c => c.1) ∧
      (∀ c ∈ groupLoop fuel l,
        c.2 = (l.filter fun x => x.Key == c.1).map fun x => x.Value) := by
  intro fuel
  induction fuel with
  | zero =>
    intro l hl _
    have : l = [] := List.length_eq_zero.1 (by omega)
    subst this
    simp [groupLoop]
  | succ fuel ih =>
    intro l hl hs
    cases l with
    | nil => simp [groupLoop]
    | cons kv rest =>
      have hlen : (rest.dropWhile fun x => x.Key == kv.Key).length ≤ fuel := by
        have := length_dropWhile_le_length (fun x => x.Key == kv.Key) rest
        simp only [List.length_cons] at hl
        omega
      obtain ⟨i1, i2, i3, i4⟩ := ih _ hlen (hs.tail.dropWhile _)
      have hsub : ∀ x, x ∈ rest.dropWhile (fun y => y.Key == kv.Key) → x ∈ rest :=
        fun x hx => (List.dropWhile_sublist _).subset hx
      have hlater : ∀ c ∈ groupLoop fuel (rest.dropWhile fun x => x.Key == kv.Key),
          kv.Key < c.1 := by
        intro c hc
        obtain ⟨x, hx, hxk⟩ := List.mem_map.1 (i1 c hc)
        rw [← hxk]
        exact hs.lt_of_mem_dropWhile hx
      simp only [groupLoop]
      refine ⟨?_, ?_, ?_, ?_⟩
      · intro c hc
        rcases List.mem_cons.1 hc with rfl | hc
        · simp
        · obtain ⟨x, hx, hxk⟩ := List.mem_map.1 (i1 c hc)
          exact List.mem_map.2 ⟨x, List.mem_cons_of_mem _ (hsub x hx), hxk⟩
      · rw [List.map_cons, List.pairwise_cons]
        refine ⟨?_, i2⟩
        intro k hk
        obtain ⟨c, hc, rfl⟩ := List.mem_map.1 hk
        exact hlater c hc
      · intro x hx
        rw [List.map_cons]
        rcases List.mem_cons.1 hx with rfl | hx
        · exact List.mem_cons_self _ _
        · rw [← List.takeWhile_append_dropWhile (fun y => y.Key == kv.Key) rest] at hx
          rcases List.mem_append.1 hx with hx | hx
          · have hxk : x.Key = kv.Key := by simpa using List.mem_takeWhile_imp hx
            rw [hxk]
            exact List.mem_cons_self _ _
          · exact List.mem_cons_of_mem _ (i3 x hx)
      · intro c hc
        rcases List.mem_cons.1 hc with rfl | hc
        · simp only
          rw [filter_key_run hs]
        · rw [filter_key_later (hlater c hc)]
          exact i4 c hc

/-- The grouping loop on a key-sorted permutation `sorted` of `kva`: the keys
of the calls of the reduce function are exactly the keys of `kva`, in
strictly ascending order, each call gets a permutation of all values paired
with its key in `kva`, and the output lines are those of the calls, in
order. -/
theorem reduceCalls_once_per_key (kva sorted : List KeyValue)
    (reducef : String → List String → String)
    (hperm : sorted.Perm kva) (hsorted : SortedByKey sorted) :
    ((reduceCalls sorted).map fun c => c.1).Pairwise (fun a b => a < b) ∧
    (∀ k, k ∈ (reduceCalls sorted).map (fun c => c.1) ↔ k ∈ kva.map fun x => x.Key) ∧
    (∀ c ∈ reduceCalls sorted,
      c.2.Perm ((kva.filter fun x => x.Key == c.1).map fun x => x.Value)) ∧
    reduceLines reducef sorted =
      (reduceCalls sorted).map fun c => c.1 ++ " " ++ reducef c.1 c.2 ++ "\n" := by
  obtain ⟨h1, h2, h3, h4⟩ := groupLoop_spec sorted.length sorted le_rfl hsorted
  refine ⟨h2, ?_, ?_, rfl⟩
  · intro k
    constructor
    · intro hk
      obtain ⟨c, hc, rfl⟩ := List.mem_map.1 hk
      exact (hperm.map _).mem_iff.1 (h1 c hc)
    · intro hk
      obtain ⟨x, hx, rfl⟩ := List.mem_map.1 hk
      exact h3 x (hperm.mem_iff.2 hx)
  · intro c hc
    rw [h4 c hc]
    exact (hperm.filter _).map _

/-! ## `strconv.Atoi` reads back what `strconv.Itoa` writes -/

theorem digitVal_digitChar (d : Nat) (h : d < 10) : digitVal (Nat.digitChar d) = some d := by
  interval_cases d <;> rfl

theorem parseDigits_append (xs ys : List Char) (acc : Nat) :
    parseDigits (xs ++ ys) acc = (parseDigits xs acc).bind fun a => parseDigits ys a := by
  induction xs generalizing acc with
  | nil => rfl
  | cons c cs ih =>
    simp only [List.cons_append, parseDigits]
    cases digitVal c with
    | none => rfl
    | some d => simpa using ih (acc * 10 + d)

theorem toDigitsCore_append (fuel n : Nat) (ds : List Char) :
    Nat.toDigitsCore 10 fuel n ds = Nat.toDigitsCore 10 fuel n [] ++ ds := by
  induction fuel generalizing n ds with
  | zero => rfl
  | succ fuel ih =>
    simp only [Nat.toDigitsCore]
    split_ifs with h
    · rfl
    · rw [ih (n / 10) (Nat.digitChar (n % 10) :: ds), ih (n / 10) [Nat.digitChar (n % 10)]]
      simp

theorem parseDigits_toDigitsCore (fuel n : Nat) (h : n < fuel) :
    parseDigits (Nat.toDigitsCore 10 fuel n []) 0 = some n := by
  induction fuel generalizing n with
  | zero => omega
  | succ fuel ih =>
    simp only [Nat.toDigitsCore]
    split_ifs with h0
    · have hn : n % 10 = n := Nat.mod_eq_of_lt (by omega)
      have hlt : n < 10 := by omega
      simp [parseDigits, hn, digitVal_digitChar n hlt]
    · rw [toDigitsCore_append, parseDigits_append, ih (n / 10) (by omega)]
      simp only [Option.some_bind, parseDigits,
        digitVal_digitChar (n % 10) (Nat.mod_lt _ (by norm_num))]
      congr 1
      omega

theorem toDigits_ne_nil (n : Nat) : Nat.toDigits 10 n ≠ [] := by
  unfold Nat.toDigits
  simp only [Nat.toDigitsCore]
  split_ifs with h
  · simp
  · rw [toDigitsCore_append]
    simp

theorem repr_ne_empty (n : Nat) : Nat.repr n ≠ "" := by
  intro h
  have := congrArg String.data h
  exact toDigits_ne_nil n this

theorem Atoi_of_parseDigits (cs : List Char) (n : Nat) (hne : cs ≠ [])
    (h : parseDigits cs 0 = some n) : Atoi ⟨cs⟩ = (n : Int) := by
  cases cs with
  | nil => exact absurd rfl hne
  | cons c cs' =>
    have hd : ∃ d, digitVal c = some d := by
      simp only [parseDigits] at h
      cases hc : digitVal c with
      | none => rw [hc] at h; simp at h
      | some d => exact ⟨d, rfl⟩
    obtain ⟨d, hd⟩ := hd
    have hminus : c ≠ '-' := by
      rintro rfl
      have hnone : digitVal '-' = none := by decide
      rw [hnone] at hd
      exact absurd hd (by simp)
    have hplus : c ≠ '+' := by
      rintro rfl
      have hnone : digitVal '+' = none := by decide
      rw [hnone] at hd
      exact absurd hd (by simp)
    unfold Atoi
    split
    · rename_i heq
      simp only [List.cons.injEq] at heq
      exact absurd heq.1 hminus
    · rename_i heq
      simp only [List.cons.injEq] at heq
      exact absurd heq.1 hplus
    · simp only [parseNat, h]

theorem Atoi_repr (n : Nat) : Atoi (Nat.repr n) = (n : Int) :=
  Atoi_of_parseDigits (Nat.toDigits 10 n) n (toDigits_ne_nil n)
    (parseDigits_toDigitsCore (n + 1) n (Nat.lt_succ_self n))

/-! ## The master along the run of a single worker -/

theorem length_flags {n k : Nat} (h : k ≤ n) : (flags n k).length = n := by
  simp only [flags, List.length_append, List.length_replicate]
  omega

theorem flags_leastFalse {n k : Nat} (h : k < n) : LeastFalse (flags n k) k := by
  constructor
  · unfold flags
    rw [List.getElem?_append_right (by simp)]
    simp only [List.length_replicate, Nat.sub_self]
    rw [List.getElem?_replicate]
    simp
    omega
  · intro j hj
    unfold flags
    rw [List.getElem?_append_left (by simpa using hj)]
    rw [List.getElem?_replicate]
    simp [hj]

theorem flags_allTrue (n : Nat) : AllTrue (flags n n) := by
  intro b hb
  simp only [flags, Nat.sub_self, List.replicate_zero, List.append_nil] at hb
  exact (List.mem_replicate.1 hb).2

theorem flags_set {n k : Nat} (h : k < n) : (flags n k).set k true = flags n (k + 1) := by
  unfold flags
  obtain ⟨d, hd⟩ : ∃ d, n - k = d + 1 := ⟨n - k - 1, by omega⟩
  have hd' : n - (k + 1) = d := by omega
  rw [hd, hd', List.replicate_succ, List.set_append_right _ _ (by simp)]
  simp only [List.length_replicate, Nat.sub_self, List.set_cons_zero]
  rw [List.replicate_succ', List.append_assoc]
  rfl

theorem scan_flags_lt {n k : Nat} (h : k < n) : scan (flags n k) = (false, (k : Int)) :=
  scan_of_leastFalse (flags_leastFalse h)

theorem scan_flags_all (n : Nat) : scan (flags n n) = (true, -1) :=
  scan_of_allTrue (flags_allTrue n)

theorem setIdx_flags {n k : Nat} (h : k < n) :
    setIdx (flags n k) (k : Int) true = some (flags n (k + 1)) := by
  rw [setIdx_natCast _ _ _ (by rw [length_flags (Nat.le_of_lt h)]; exact h), flags_set h]

theorem MakeMaster_progress (files : List String) (nReduce : Nat) :
    MakeMaster files (nReduce : Int) = some (progress files nReduce 0 0 0 0) := by
  have h0 : ¬ (nReduce : Int) < 0 := by omega
  simp [MakeMaster, h0, progress, flags]

/-- The registration on the fresh master is answered with map task 0. -/
theorem Dispatch_progress_register (files : List String) (nReduce : Nat)
    (hM : 0 < files.length) :
    ∃ reply, Dispatch (progress files nReduce 0 0 0 0) { Phase := "Register", FileIndex := -1 }
        Response.zero = some (progress files nReduce 1 0 0 0, reply, none) ∧
      reply.Phase = mapPhase ∧ reply.FileIndex = Nat.repr 0 ∧ reply.NReduce = (nReduce : Int) := by
  obtain ⟨name, hget, -⟩ := getIdx_isSome (s := files) (j := 0) hM
  refine ⟨{ Phase := mapPhase, FileName := name, FileIndex := Nat.repr 0,
            NReduce := (nReduce : Int), NFile := (files.length : Int) }, ?_, rfl, rfl, rfl⟩
  rw [Dispatch_of_poll _ _ _ (Or.inl rfl)]
  unfold dispatchPoll
  have hs := scan_flags_lt hM
  have hset := setIdx_flags hM
  simp only [progress, hs] at *
  simp only [Nat.cast_zero] at hset hget
  simp [hset, hget, Itoa, Response.zero]

/-- The report of map task `k` while a further map task is idle is answered
with map task `k + 1`. -/
theorem Dispatch_progress_map (files : List String) (nReduce k : Nat)
    (hk : k + 1 < files.length) :
    ∃ reply, Dispatch (progress files nReduce (k + 1) k 0 0)
        { Phase := mapPhase, FileIndex := (k : Int) } Response.zero =
        some (progress files nReduce (k + 2) (k + 1) 0 0, reply, none) ∧
      reply.Phase = mapPhase ∧ reply.FileIndex = Nat.repr (k + 1) ∧
      reply.NReduce = (nReduce : Int) := by
  obtain ⟨name, hget, -⟩ := getIdx_isSome (s := files) (j := k + 1) hk
  refine ⟨{ Phase := mapPhase, FileName := name, FileIndex := Nat.repr (k + 1),
            NReduce := (nReduce : Int), NFile := (files.length : Int) }, ?_, rfl, rfl, rfl⟩
  rw [Dispatch_of_map _ _ _ rfl]
  unfold dispatchMap
  have hsetm := setIdx_flags (show k < files.length by omega)
  have hs := scan_flags_lt hk
  have hset := setIdx_flags hk
  simp only [progress, hsetm, Option.some_bind, hs]
  simp only [Nat.cast_add, Nat.cast_one] at hset hget
  simp [hset, hget, Itoa, Response.zero]

/-- The report of the last map task is answered with reduce task 0. -/
theorem Dispatch_progress_last_map (files : List String) (nReduce k : Nat)
    (hk : k + 1 = files.length) (hR : 0 < nReduce) :
    ∃ reply, Dispatch (progress files nReduce (k + 1) k 0 0)
        { Phase := mapPhase, FileIndex := (k : Int) } Response.zero =
        some (progress files nReduce (k + 1) (k + 1) 1 0, reply, none) ∧
      reply.Phase = reducePhase ∧ reply.FileIndex = Nat.repr 0 ∧
      reply.NReduce = (nReduce : Int) := by
  refine ⟨{ Phase := reducePhase, FileName := "", FileIndex := Nat.repr 0,
            NReduce := (nReduce : Int), NFile := (files.length : Int) }, ?_, rfl, rfl, rfl⟩
  rw [Dispatch_of_map _ _ _ rfl]
  unfold dispatchMap
  have hsetm := setIdx_flags (show k < files.length by omega)
  have hsa := scan_flags_all files.length
  have hsc := scan_flags_lt hR
  have hset := setIdx_flags hR
  simp only [progress, hsetm, Option.some_bind]
  rw [hk]
  simp only [hsa, hsc]
  simp only [Nat.cast_zero] at hset
  simp [hset, Itoa, Response.zero]

/-- The report of reduce task `k` while a further reduce task is idle is
answered with reduce task `k + 1`. -/
theorem Dispatch_progress_reduce (files : List String) (nReduce k : Nat)
    (hk : k + 1 < nReduce) :
    ∃ reply, Dispatch (progress files nReduce files.length files.length (k + 1) k)
        { Phase := reducePhase, FileIndex := (k : Int) } Response.zero =
        some (progress files nReduce files.length files.length (k + 2) (k + 1), reply, none) ∧
      reply.Phase = reducePhase ∧ reply.FileIndex = Nat.repr (k + 1) ∧
      reply.NReduce = (nReduce : Int) := by
  refine ⟨{ Phase := reducePhase, FileName := "", FileIndex := Nat.repr (k + 1),
            NReduce := (nReduce : Int), NFile := (files.length : Int) }, ?_, rfl, rfl, rfl⟩
  rw [Dispatch_of_reduce _ _ _ rfl]
  unfold dispatchReduce
  have hsetd := setIdx_flags (show k < nReduce by omega)
  have hsb := scan_flags_all files.length
  have hsc := scan_flags_lt hk
  have hset := setIdx_flags hk
  simp only [progress, hsetd, Option.some_bind, hsb, hsc]
  simp only [Nat.cast_add, Nat.cast_one] at hset
  simp [hset, Itoa, Response.zero]

/-- The report of the last reduce task is answered with Done. -/
theorem Dispatch_progress_last_reduce (files : List String) (nReduce k : Nat)
    (hk : k + 1 = nReduce) :
    ∃ reply, Dispatch (progress files nReduce files.length files.length (k + 1) k)
        { Phase := reducePhase, FileIndex := (k : Int) } Response.zero =
        some (progress files nReduce files.length files.length (k + 1) (k + 1), reply, none) ∧
      reply.Phase = donePhase ∧ reply.FileIndex = "-1" := by
  refine ⟨{ Phase := donePhase, FileName := "", FileIndex := "-1",
            NReduce := -1, NFile := 0 }, ?_, rfl, rfl⟩
  rw [Dispatch_of_reduce _ _ _ rfl]
  unfold dispatchReduce
  have hsetd := setIdx_flags (show k < nReduce by omega)
  have hsb := scan_flags_all files.length
  have hsc := scan_flags_all nReduce
  simp only [progress, hsetd, Option.some_bind, hsb]
  rw [hk]
  simp only [hsc]
  simp [Itoa, Response.zero, donePhase]
  rfl

/-! ## A single worker against a fresh master -/

theorem createLoop_ok (env : WorkerEnv) (hc : ∀ name, env.createOk name = true) (index : Int)
    (l : List Nat) : (createLoop env index l).2 = true := by
  induction l with
  | nil => rfl
  | cons i is ih => simp [createLoop, hc, ih]

theorem workerStep_map_action (env : WorkerEnv) (hio : NoIOFailure env) (w : Response)
    (hp : w.Phase = mapPhase) (hn : 1 ≤ w.NReduce) :
    (workerStep env w).action = Action.send { Phase := mapPhase, FileIndex := Atoi w.FileIndex } := by
  obtain ⟨hread, hcreate, -, -⟩ := hio
  obtain ⟨content, hcontent⟩ := Option.isSome_iff_exists.1 (hread w.FileName)
  obtain ⟨records, hrecords, -⟩ := encodeLoop_keys w.NReduce hn
    (env.sortByKey ([] ++ env.mapf w.FileName content)).length
    (env.sortByKey ([] ++ env.mapf w.FileName content)) le_rfl
  have hneg : ¬ w.NReduce < 0 := by omega
  unfold workerStep
  rw [if_pos hp]
  unfold mapAttempt
  simp only [hcontent, hneg, if_false, createLoop_ok env hcreate, Bool.not_true]
  unfold mapRecords
  rw [hrecords]
  simp

theorem workerStep_reduce_action (env : WorkerEnv) (hio : NoIOFailure env) (w : Response)
    (hp : w.Phase = reducePhase) :
    (workerStep env w).action =
      Action.send { Phase := reducePhase, FileIndex := Atoi w.FileIndex } := by
  obtain ⟨-, hcreate, -, -⟩ := hio
  have hne : ¬ w.Phase = mapPhase := by rw [hp]; decide
  unfold workerStep
  rw [if_neg hne, if_pos hp]
  unfold reduceAttempt
  simp [hcreate]

theorem callLoop_done (env : WorkerEnv) (fuel : Nat) (m : Master) (w : Response)
    (hp : w.Phase = "Done") :
    callLoop env (fuel + 1) m w =
      some { master := m, requests := [], replies := [], ops := [], finished := true } := by
  simp [callLoop, hp]

theorem callLoop_send (env : WorkerEnv) (fuel : Nat) (m m' : Master) (w reply : Response)
    (request : Request) (e : GoError) (hp : w.Phase ≠ "Done")
    (haction : (workerStep env w).action = Action.send request)
    (hd : Dispatch m request Response.zero = some (m', reply, e)) :
    callLoop env (fuel + 1) m w =
      (callLoop env fuel m' (gobDecode w reply)).map fun run =>
        { run with requests := request :: run.requests, replies := reply :: run.replies,
                   ops := (workerStep env w).ops ++ run.ops } := by
  simp [callLoop, hp, haction, call, hd]

theorem gobDecode_phase (w reply : Response) (h : reply.Phase ≠ "") :
    (gobDecode w reply).Phase = reply.Phase := by
  simp [gobDecode, h]

theorem gobDecode_fileIndex (w reply : Response) (h : reply.FileIndex ≠ "") :
    (gobDecode w reply).FileIndex = reply.FileIndex := by
  simp [gobDecode, h]

theorem gobDecode_nReduce (w reply : Response) (h : reply.NReduce ≠ 0) :
    (gobDecode w reply).NReduce = reply.NReduce := by
  simp [gobDecode, h]

/-- The reduce phase of the run: a worker holding reduce task `k`, with `n`
reduce tasks after it, sends `n + 1` reports and is then told Done. -/
theorem callLoop_reduce_phase (env : WorkerEnv) (hio : NoIOFailure env) (files : List String)
    (nReduce : Nat) :
    ∀ (n k : Nat) (w : Response), k + 1 + n = nReduce → w.Phase = reducePhase →
      w.FileIndex = Nat.repr k →
      ∃ run, callLoop env (n + 2)
          (progress files nReduce files.length files.length (k + 1) k) w = some run ∧
        run.finished = true ∧
        run.master = progress files nReduce files.length files.length nReduce nReduce ∧
        run.replies.map assignment =
          (List.range' (k + 1) n).map (fun i => (reducePhase, Nat.repr i)) ++
            [(donePhase, "-1")] ∧
        run.requests.length = n + 1 := by
  intro n
  induction n with
  | zero =>
    intro k w hk hp hidx
    have hnd : w.Phase ≠ "Done" := by rw [hp]; decide
    have hact := workerStep_reduce_action env hio w hp
    rw [hidx, Atoi_repr] at hact
    obtain ⟨reply, hd, hrp, hri⟩ := Dispatch_progress_last_reduce files nReduce k (by omega)
    have hw' : (gobDecode w reply).Phase = "Done" := by
      rw [gobDecode_phase _ _ (by rw [hrp]; decide), hrp]; rfl
    have heq := callLoop_send env 1 _ _ w reply _ none hnd hact hd
    rw [callLoop_done env 0 _ _ hw', Option.map_some'] at heq
    refine ⟨_, heq, rfl, ?_, ?_, rfl⟩
    · simp only
      rw [show k + 1 = nReduce by omega]
    · simp [assignment, hrp, hri]
  | succ n ih =>
    intro k w hk hp hidx
    have hnd : w.Phase ≠ "Done" := by rw [hp]; decide
    have hact := workerStep_reduce_action env hio w hp
    rw [hidx, Atoi_repr] at hact
    obtain ⟨reply, hd, hrp, hri, -⟩ := Dispatch_progress_reduce files nReduce k (by omega)
    have hwp : (gobDecode w reply).Phase = reducePhase := by
      rw [gobDecode_phase _ _ (by rw [hrp]; decide), hrp]
    have hwi : (gobDecode w reply).FileIndex = Nat.repr (k + 1) := by
      rw [gobDecode_fileIndex _ _ (by rw [hri]; exact repr_ne_empty _), hri]
    obtain ⟨run, hrun, hfin, hmaster, hreplies, hreqs⟩ :=
      ih (k + 1) (gobDecode w reply) (by omega) hwp hwi
    have heq := callLoop_send env (n + 2) _ _ w reply _ none hnd hact hd
    rw [hrun, Option.map_some'] at heq
    refine ⟨_, heq, hfin, hmaster, ?_, ?_⟩
    · simp only [List.map_cons, hreplies, List.range'_succ, assignment, hrp, hri,
        List.cons_append]
    · simp only [List.length_cons, hreqs]

/-- The map phase of the run: a worker holding map task `k`, with `n` map
tasks after it, reports them one by one, is handed reduce task 0 on its last
map report and then goes through the reduce phase. -/
theorem callLoop_map_phase (env : WorkerEnv) (hio : NoIOFailure env) (files : List String)
    (nReduce : Nat) (hR : 1 ≤ nReduce) :
    ∀ (n k : Nat) (w : Response), k + 1 + n = files.length → w.Phase = mapPhase →
      w.FileIndex = Nat.repr k → w.NReduce = (nReduce : Int) →
      ∃ run, callLoop env (n + 1 + nReduce + 1) (progress files nReduce (k + 1) k 0 0) w =
          some run ∧
        run.finished = true ∧
        run.master = progress files nReduce files.length files.length nReduce nReduce ∧
        run.replies.map assignment =
          (List.range' (k + 1) n).map (fun i => (mapPhase, Nat.repr i)) ++
            ((List.range nReduce).map (fun i => (reducePhase, Nat.repr i)) ++
              [(donePhase, "-1")]) ∧
        run.requests.length = n + 1 + nReduce := by
  intro n
  induction n with
  | zero =>
    intro k w hk hp hidx hnr
    have hnd : w.Phase ≠ "Done" := by rw [hp]; decide
    have hact := workerStep_map_action env hio w hp (by rw [hnr]; exact_mod_cast hR)
    rw [hidx, Atoi_repr] at hact
    obtain ⟨reply, hd, hrp, hri, -⟩ :=
      Dispatch_progress_last_map files nReduce k (by omega) (by omega)
    have hwp : (gobDecode w reply).Phase = reducePhase := by
      rw [gobDecode_phase _ _ (by rw [hrp]; decide), hrp]
    have hwi : (gobDecode w reply).FileIndex = Nat.repr 0 := by
      rw [gobDecode_fileIndex _ _ (by rw [hri]; exact repr_ne_empty _), hri]
    obtain ⟨r, hr⟩ : ∃ r, nReduce = r + 1 := ⟨nReduce - 1, by omega⟩
    obtain ⟨run, hrun, hfin, hmaster, hreplies, hreqs⟩ :=
      callLoop_reduce_phase env hio files nReduce r 0 (gobDecode w reply) (by omega) hwp hwi
    have hkM : k + 1 = files.length := by omega
    have hd' : Dispatch (progress files nReduce (k + 1) k 0 0)
        { Phase := mapPhase, FileIndex := (k : Int) } Response.zero =
        some (progress files nReduce files.length files.length 1 0, reply, none) := by
      rw [← hkM]
      exact hd
    simp only [Nat.zero_add] at hrun hreplies
    have heq := callLoop_send env (r + 2) _ _ w reply _ none hnd hact hd'
    rw [hrun, Option.map_some'] at heq
    rw [show 0 + 1 + nReduce + 1 = (r + 2) + 1 by omega]
    refine ⟨_, heq, hfin, hmaster, ?_, ?_⟩
    · simp only [List.map_cons, hreplies, assignment, hrp, hri, List.range'_zero, List.map_nil,
        List.nil_append]
      rw [hr, List.range_eq_range', List.range'_succ]
      simp
    · show (_ :: run.requests).length = _
      rw [List.length_cons, hreqs]
      omega
  | succ n ih =>
    intro k w hk hp hidx hnr
    have hnd : w.Phase ≠ "Done" := by rw [hp]; decide
    have hact := workerStep_map_action env hio w hp (by rw [hnr]; exact_mod_cast hR)
    rw [hidx, Atoi_repr] at hact
    obtain ⟨reply, hd, hrp, hri, hrn⟩ := Dispatch_progress_map files nReduce k (by omega)
    have hwp : (gobDecode w reply).Phase = mapPhase := by
      rw [gobDecode_phase _ _ (by rw [hrp]; decide), hrp]
    have hwi : (gobDecode w reply).FileIndex = Nat.repr (k + 1) := by
      rw [gobDecode_fileIndex _ _ (by rw [hri]; exact repr_ne_empty _), hri]
    have hwn : (gobDecode w reply).NReduce = (nReduce : Int) := by
      rw [gobDecode_nReduce _ _ (by rw [hrn]; omega), hrn]
    obtain ⟨run, hrun, hfin, hmaster, hreplies, hreqs⟩ :=
      ih (k + 1) (gobDecode w reply) (by omega) hwp hwi hwn
    have heq := callLoop_send env (n + 1 + nReduce + 1) _ _ w reply _ none hnd hact hd
    rw [hrun, Option.map_some'] at heq
    rw [show n + 1 + 1 + nReduce + 1 = (n + 1 + nReduce + 1) + 1 by omega]
    refine ⟨_, heq, hfin, hmaster, ?_, ?_⟩
    · simp only [List.map_cons, hreplies, List.range'_succ, assignment, hrp, hri,
        List.cons_append]
    · show (_ :: run.requests).length = _
      rw [List.length_cons, hreqs]
      omega

/-- Claim C20: for `M >= 1` input files and `R >= 1` reduce tasks, a single
worker running `Call` alone against the master `MakeMaster` builds, with no
file operation failing, terminates after exactly `M + R + 1` calls of
`Dispatch`: the replies assign map tasks `0, ..., M-1` in that order, then
reduce tasks `0, ..., R-1` in that order, none is Waiting, the last one is
Done, and `Done()` returns `true` on the master the run leaves. -/
theorem Call_single_worker (env : WorkerEnv) (files : List String) (nReduce : Nat)
    (hio : NoIOFailure env) (hM : 1 ≤ files.length) (hR : 1 ≤ nReduce) :
    ∃ m0 run, MakeMaster files (nReduce : Int) = some m0 ∧
      Call env (files.length + nReduce + 1) m0 = some run ∧
      run.finished = true ∧
      run.requests.length = files.length + nReduce + 1 ∧
      run.replies.length = files.length + nReduce + 1 ∧
      run.replies.map assignment =
        (List.range files.length).map (fun i => (mapPhase, Nat.repr i)) ++
          ((List.range nReduce).map (fun i => (reducePhase, Nat.repr i)) ++
            [(donePhase, "-1")]) ∧
      (∀ r ∈ run.replies, r.Phase ≠ waitPhase) ∧
      (Done run.master).2 = true := by
  obtain ⟨reply, hd, hrp, hri, hrn⟩ := Dispatch_progress_register files nReduce (by omega)
  have hwp : (gobDecode Response.zero reply).Phase = mapPhase := by
    rw [gobDecode_phase _ _ (by rw [hrp]; decide), hrp]
  have hwi : (gobDecode Response.zero reply).FileIndex = Nat.repr 0 := by
    rw [gobDecode_fileIndex _ _ (by rw [hri]; exact repr_ne_empty _), hri]
  have hwn : (gobDecode Response.zero reply).NReduce = (nReduce : Int) := by
    rw [gobDecode_nReduce _ _ (by rw [hrn]; omega), hrn]
  obtain ⟨n, hn⟩ : ∃ n, files.length = n + 1 := ⟨files.length - 1, by omega⟩
  obtain ⟨run, hrun, hfin, hmaster, hreplies, hreqs⟩ :=
    callLoop_map_phase env hio files nReduce hR n 0 (gobDecode Response.zero reply)
      (by omega) hwp hwi hwn
  have hall : (({ run with requests := { Phase := "Register", FileIndex := -1 } :: run.requests,
                           replies := reply :: run.replies } : Run).replies.map assignment) =
      (List.range files.length).map (fun i => (mapPhase, Nat.repr i)) ++
          ((List.range nReduce).map (fun i => (reducePhase, Nat.repr i)) ++
            [(donePhase, "-1")]) := by
    simp only [List.map_cons, hreplies, assignment, hrp, hri]
    rw [hn, List.range_eq_range' (n := n + 1), List.range'_succ]
    simp
  have hcall : Call env (files.length + nReduce + 1) (progress files nReduce 0 0 0 0) =
      some { run with requests := { Phase := "Register", FileIndex := -1 } :: run.requests,
                      replies := reply :: run.replies } := by
    unfold Call
    simp only [call, hd, Option.map_some', Option.some_bind]
    rw [show files.length + nReduce + 1 = n + 1 + nReduce + 1 by omega, hrun]
    rfl
  refine ⟨_, _, MakeMaster_progress files nReduce, hcall, hfin, ?_, ?_, hall, ?_, ?_⟩
  · show (_ :: run.requests).length = _
    rw [List.length_cons, hreqs]
    omega
  · show (reply :: run.replies).length = _
    have h1 : ((reply :: run.replies).map assignment).length = _ := congrArg List.length hall
    simp only [List.length_map, List.length_append, List.length_range, List.length_cons,
      List.length_nil] at h1
    rw [List.length_cons]
    omega
  · intro r hr hw
    have hmem : assignment r ∈
        (List.range files.length).map (fun i => (mapPhase, Nat.repr i)) ++
          ((List.range nReduce).map (fun i => (reducePhase, Nat.repr i)) ++
            [(donePhase, "-1")]) := by
      rw [← hall]
      exact List.mem_map_of_mem _ hr
    simp only [List.mem_append, List.mem_map, List.mem_singleton, assignment,
      Prod.mk.injEq] at hmem
    rcases hmem with ⟨_, -, h, -⟩ | ⟨_, -, h, -⟩ | ⟨h, -⟩
    · rw [hw] at h; exact absurd h (by decide)
    · rw [hw] at h; exact absurd h (by decide)
    · rw [hw] at h; exact absurd h (by decide)
  · show (Done run.master).2 = true
    rw [hmaster]
    exact (scan_fst_iff _).2 (flags_allTrue nReduce)

/-- Witness for C20: one input file and two reduce tasks, four calls. -/
theorem Call_single_worker_witness :
    NoIOFailure sampleEnv ∧
    (Call sampleEnv 4 freshOneTwo).map (fun run => run.replies.map assignment) =
      some [(mapPhase, "0"), (reducePhase, "0"), (reducePhase, "1"), (donePhase, "-1")] ∧
    ∃ m0 run, MakeMaster ["a"] ((2 : Nat) : Int) = some m0 ∧
      Call sampleEnv (["a"].length + 2 + 1) m0 = some run ∧ run.finished = true ∧
      run.requests.length = ["a"].length + 2 + 1 :=
  have hio : NoIOFailure sampleEnv :=
    ⟨fun _ => rfl, fun _ => rfl, fun _ _ => rfl, fun _ => rfl⟩
  have h := Call_single_worker sampleEnv ["a"] 2 hio (by decide) (by decide)
  ⟨hio, by rfl, h.elim fun m0 h1 => h1.elim fun run hr =>
    ⟨m0, run, hr.1, hr.2.1, hr.2.2.1, hr.2.2.2.1⟩⟩

/-! ## The invariants of reachable tables and the claims resting on them -/

theorem count_true_set_le (s : List Bool) (i : Nat) :
    (s.set i true).count true ≤ s.count true + 1 := by
  induction s generalizing i with
  | nil => simp
  | cons b bs ih =>
    cases i with
    | zero => cases b <;> simp [List.count_cons]
    | succ i =>
      have := ih i
      cases b <;> simp [List.count_cons] <;> omega

theorem count_true_le_set (s : List Bool) (i : Nat) :
    s.count true ≤ (s.set i true).count true := by
  induction s generalizing i with
  | nil => simp
  | cons b bs ih =>
    cases i with
    | zero => cases b <;> simp [List.count_cons]
    | succ i =>
      have := ih i
      cases b <;> simp [List.count_cons] <;> omega

theorem count_true_set_of_false {s : List Bool} {i : Nat} (h : s[i]? = some false) :
    (s.set i true).count true = s.count true + 1 := by
  induction s generalizing i with
  | nil => simp at h
  | cons b bs ih =>
    cases i with
    | zero =>
      have hb : b = false := by simpa using h
      subst hb
      simp [List.count_cons]
    | succ i =>
      have := ih (i := i) (by simpa using h)
      cases b <;> simp [List.count_cons] <;> omega

theorem allTrue_iff_count (s : List Bool) : AllTrue s ↔ s.count true = s.length := by
  rw [List.count_eq_length]
  constructor
  · intro h b hb
    exact (h b hb).symm
  · intro h b hb
    exact (h b hb).symm

/-- The Map-report branch either marks the least unassigned map task or finds
every map task assigned and leaves `MappingFiles` as it is. -/
theorem dispatchMap_mapping {m m' : Master} {q : Request} {r r' : Response}
    (h : dispatchMap m q r = some (m', r')) :
    (∃ i : Nat, LeastFalse m.MappingFiles i ∧ m'.MappingFiles = m.MappingFiles.set i true) ∨
    (AllTrue m.MappingFiles ∧ m'.MappingFiles = m.MappingFiles) := by
  unfold dispatchMap at h
  obtain ⟨mapped, hset, h⟩ := Option.bind_eq_some.1 h
  obtain ⟨h0, hlt, rfl⟩ := setIdx_eq_some.1 hset
  simp only at h
  generalize ha : scan m.MappingFiles = sa at h
  generalize scan (m.MappedFiles.set q.FileIndex.toNat true) = sb at h
  generalize scan m.ReducingFiles = sc at h
  obtain ⟨a1, a2⟩ := sa
  obtain ⟨b1, b2⟩ := sb
  obtain ⟨c1, c2⟩ := sc
  cases a1
  · obtain ⟨j, rfl, hj, hjlt⟩ := scan_index_of_false ha
    left
    refine ⟨j, hj, ?_⟩
    simp only [Bool.not_false, if_true, setIdx_natCast _ _ _ hjlt, Option.some_bind,
      Option.bind_eq_some] at h
    obtain ⟨_, _, h⟩ := h
    simp only [Option.some.injEq, Prod.mk.injEq] at h
    rw [← h.1]
  · right
    have hall : AllTrue m.MappingFiles := (scan_fst_iff _).1 (by rw [ha])
    refine ⟨hall, ?_⟩
    cases b1 <;> cases c1 <;> cases ht : m.Timeout <;>
      simp [Option.bind_eq_some, setIdx_eq_some, ht] at h
    all_goals first
      | (obtain ⟨_, ⟨_, _, rfl⟩, rfl, rfl⟩ := h; rfl)
      | (obtain ⟨_, _, rfl, rfl⟩ := h; rfl)
      | (obtain ⟨rfl, rfl⟩ := h; rfl)

theorem Dispatch_completedWithinAssigned {m m' : Master} {q : Request} {r r' : Response}
    {e : GoError} (h : Dispatch m q r = some (m', r', e)) (hwf : WellFormed m)
    (hinv : CompletedWithinAssigned m) : CompletedWithinAssigned m' := by
  unfold CompletedWithinAssigned at *
  obtain ⟨⟨-, w2, w3⟩, -⟩ := hwf
  obtain ⟨-, hp | hm | hr | ⟨rfl, -⟩⟩ := Dispatch_cases h
  · obtain ⟨-, -, -, h4, -, -, h7⟩ := dispatchPoll_state hp
    rw [h4]
    rcases h7 with h7 | ⟨i, h7⟩
    · rw [h7]; exact hinv
    · rw [h7]; exact le_trans hinv (count_true_le_set _ _)
  · obtain ⟨-, -, -, -, h4, -, -, -⟩ := dispatchMap_state hm
    have hmapped := count_true_set_le m.MappedFiles q.FileIndex.toNat
    rw [h4]
    rcases dispatchMap_mapping hm with ⟨i, hi, h7⟩ | ⟨hall, h7⟩
    · rw [h7, count_true_set_of_false hi.1]
      omega
    · rw [h7, (allTrue_iff_count _).1 hall]
      have := List.count_le_length true (m.MappedFiles.set q.FileIndex.toNat true)
      rw [List.length_set] at this
      omega
  · obtain ⟨-, -, -, -, h4, h5, -, -⟩ := dispatchReduce_state hr
    rw [h4, h5]
    exact hinv
  · exact hinv

theorem Reachable.completedWithinAssigned {m : Master} (h : Reachable m) :
    CompletedWithinAssigned m := by
  induction h with
  | make files nReduce m hm =>
    obtain ⟨-, rfl⟩ := MakeMaster_eq_some hm
    simp [CompletedWithinAssigned]
  | step m m' q r r' e hreach hd ih =>
    exact Dispatch_completedWithinAssigned hd hreach.wellFormed ih

/-- In a table a run can produce, once every map task is completed every map
task is marked assigned. -/
theorem Reachable.assigned_of_completed {m : Master} (h : Reachable m)
    (hall : AllTrue m.MappedFiles) : AllTrue m.MappingFiles := by
  have hinv := h.completedWithinAssigned
  obtain ⟨⟨-, w2, w3⟩, -⟩ := h.wellFormed
  unfold CompletedWithinAssigned at hinv
  rw [(allTrue_iff_count _).1 hall] at hinv
  have := List.count_le_length true m.MappingFiles
  exact (allTrue_iff_count _).2 (by omega)

/-- If `Dispatch` answers Reduce on a table in which a reduce task is marked
assigned only when every map task is completed, every map task is completed
after the call. -/
theorem allTrue_mapped_of_reduce_answer {m m' : Master} {q : Request} {r' : Response}
    {e : GoError} (hinv : ReduceAfterMap m)
    (hlen : m.ReducingFiles.length = m.ReducedFiles.length)
    (h : Dispatch m q Response.zero = some (m', r', e)) (hp : r'.Phase = reducePhase) :
    AllTrue m'.MappedFiles := by
  obtain ⟨-, hpoll | hmap | hred | ⟨rfl, rfl, -⟩⟩ := Dispatch_cases h
  · rw [(dispatchPoll_state hpoll).2.2.2.1]
    exact (dispatchPoll_phase hpoll).1 hp
  · exact (dispatchMap_phase hmap).1 hp
  · obtain ⟨-, -, -, -, -, h5, h6, -⟩ := dispatchReduce_state hred
    rw [h5]
    rcases (dispatchReduce_phase hred).1 hp with hall | ⟨hall, hnot⟩
    · exact hall
    · apply hinv
      have hne : m.ReducingFiles ≠ [] := by
        intro hnil
        apply hnot
        have hlen' : m'.ReducedFiles.length = 0 := by
          rw [h6, List.length_set, ← hlen, hnil]
          rfl
        rw [List.length_eq_zero.1 hlen']
        intro b hb
        simp at hb
      obtain ⟨b, hb⟩ := List.exists_mem_of_ne_nil _ hne
      exact ⟨b, hb, hall b hb⟩
  · simp [Response.zero, reducePhase] at hp

/-- For a request that is not a Reduce report, an answer Reduce means that
every map task is completed, on any table. -/
theorem allTrue_mapped_of_reduce_answer_other {m m' : Master} {q : Request} {r' : Response}
    {e : GoError} (hq : q.Phase ≠ reducePhase)
    (h : Dispatch m q Response.zero = some (m', r', e)) (hp : r'.Phase = reducePhase) :
    AllTrue m'.MappedFiles := by
  by_cases hpoll : q.Phase = regPhase ∨ q.Phase = waitPhase
  · rw [Dispatch_of_poll _ _ _ hpoll] at h
    obtain ⟨⟨a, b⟩, hab, heq⟩ := Option.map_eq_some'.1 h
    simp only [Prod.mk.injEq] at heq
    obtain ⟨rfl, rfl, -⟩ := heq
    rw [(dispatchPoll_state hab).2.2.2.1]
    exact (dispatchPoll_phase hab).1 hp
  · by_cases hmap : q.Phase = mapPhase
    · rw [Dispatch_of_map _ _ _ hmap] at h
      obtain ⟨⟨a, b⟩, hab, heq⟩ := Option.map_eq_some'.1 h
      simp only [Prod.mk.injEq] at heq
      obtain ⟨rfl, rfl, -⟩ := heq
      exact (dispatchMap_phase hab).1 hp
    · exfalso
      unfold Dispatch at h
      have hpoll' : ¬ (q.Phase = "Register" ∨ q.Phase = "Waiting") := hpoll
      rw [if_neg hpoll', if_neg hmap, if_neg hq] at h
      simp only [Option.some.injEq, Prod.mk.injEq] at h
      rw [← h.2.1] at hp
      simp [Response.zero, reducePhase] at hp

/-- Claim C1: for every state the master can be in (the one `MakeMaster`
builds and every state a returning `Dispatch` call leaves, whatever the
requests) and every request, if `Dispatch` applied to a zero-valued response
answers with phase Reduce, then after the call every entry of `MappedFiles`
is `true`.  The same holds on any table in which a reduce task is marked
assigned only when every map task is completed and the two reduce slices
have the same length, and, for requests other than a Reduce report, on any
table at all. -/
theorem Dispatch_reduce_only_after_maps (m m' : Master) (q : Request) (r' : Response)
    (e : GoError) (h : Dispatch m q Response.zero = some (m', r', e))
    (hp : r'.Phase = reducePhase) :
    (Reachable m → AllTrue m'.MappedFiles) ∧
    (ReduceAfterMap m → m.ReducingFiles.length = m.ReducedFiles.length →
      AllTrue m'.MappedFiles) ∧
    (q.Phase ≠ reducePhase → AllTrue m'.MappedFiles) := by
  refine ⟨?_, ?_, ?_⟩
  · intro hreach
    obtain ⟨-, w4, w5⟩ := hreach.wellFormed
    exact allTrue_mapped_of_reduce_answer hreach.reduceAfterMap (by omega) h hp
  · intro hinv hlen
    exact allTrue_mapped_of_reduce_answer hinv hlen h hp
  · intro hq
    exact allTrue_mapped_of_reduce_answer_other hq h hp

/-- Witness for C1: `lastMapRunning` is reached from the fresh `freshOneTwo` by
one registration; the report of its map task is answered with Reduce, and the
map flags are all set afterwards. -/
theorem Dispatch_reduce_only_after_maps_witness :
    Reachable lastMapRunning ∧
    Dispatch lastMapRunning { Phase := mapPhase, FileIndex := 0 } Response.zero =
      some (oneReduceIdle,
            { Phase := reducePhase, FileName := "", FileIndex := "0", NReduce := 2, NFile := 1 },
            none) ∧
    AllTrue oneReduceIdle.MappedFiles :=
  have hreach : Reachable lastMapRunning :=
    Reachable.step freshOneTwo lastMapRunning { Phase := regPhase, FileIndex := -1 }
      Response.zero
      { Phase := mapPhase, FileName := "a", FileIndex := "0", NReduce := 2, NFile := 1 } none
      (Reachable.make ["a"] 2 freshOneTwo (by rfl)) (by rfl)
  ⟨hreach, by rfl,
   (Dispatch_reduce_only_after_maps lastMapRunning oneReduceIdle
      { Phase := mapPhase, FileIndex := 0 }
      { Phase := reducePhase, FileName := "", FileIndex := "0", NReduce := 2, NFile := 1 } none
      (by rfl) (by rfl)).1 hreach⟩

/-- Claim C18: for every state the master can be in (more generally, every
table whose map slices and `Files` have length `NFile` and in which every
map task is marked assigned once all are completed) in which all tasks of
the current kind are assigned but not all completed, a poll (Register or
Waiting) toggles the timeout flag.  With all of `MappingFiles` true and some
`MappedFiles` entry false: if the flag is `false` the poll sets it, changes
no task flag and answers Waiting with `FileIndex` "-1"; if the flag is `true`
the poll clears it and answers Map with the decimal string of the least
index whose `MappedFiles` entry is false.  With all of `MappedFiles` and
`ReducingFiles` true and some `ReducedFiles` entry false the same holds with
Reduce and `ReducedFiles`. -/
theorem Dispatch_poll_timeout_toggle (m : Master) (q : Request) (resp : Response)
    (hm : Reachable m ∨
      (MapWellFormed m ∧ (AllTrue m.MappedFiles → AllTrue m.MappingFiles)))
    (hq : q.Phase = regPhase ∨ q.Phase = waitPhase) :
    (AllTrue m.MappingFiles → ¬ AllTrue m.MappedFiles →
      ∃ i : Nat, LeastFalse m.MappedFiles i ∧
        (m.Timeout = false →
          Dispatch m q resp =
            some ({ m with Timeout := true },
                  { resp with Phase := waitPhase, FileIndex := "-1", FileName := "",
                              NReduce := -1 }, none)) ∧
        (m.Timeout = true →
          ∃ name, m.Files[i]? = some name ∧
            Dispatch m q resp =
              some ({ m with Timeout := false },
                    { Phase := mapPhase, FileName := name, FileIndex := Nat.repr i,
                      NReduce := m.NReduce, NFile := m.NFile }, none))) ∧
    (AllTrue m.MappedFiles → AllTrue m.ReducingFiles → ¬ AllTrue m.ReducedFiles →
      ∃ i : Nat, LeastFalse m.ReducedFiles i ∧
        (m.Timeout = false →
          Dispatch m q resp =
            some ({ m with Timeout := true },
                  { Phase := waitPhase, FileName := "", FileIndex := "-1", NReduce := -1,
                    NFile := -1 }, none)) ∧
        (m.Timeout = true →
          Dispatch m q resp =
            some ({ m with Timeout := false },
                  { Phase := reducePhase, FileName := "", FileIndex := Nat.repr i,
                    NReduce := m.NReduce, NFile := m.NFile }, none))) := by
  have hwf : MapWellFormed m := by
    rcases hm with hm | hm
    · exact hm.wellFormed.1
    · exact hm.1
  have hinv : AllTrue m.MappedFiles → AllTrue m.MappingFiles := by
    rcases hm with hm | hm
    · exact hm.assigned_of_completed
    · exact hm.2
  constructor
  · intro hassigned hnot
    exact (Dispatch_poll_toggle_of_assigned m q resp hwf hq hassigned).1 hnot
  · intro hmapped hreducing hnot
    exact (Dispatch_poll_toggle_of_assigned m q resp hwf hq (hinv hmapped)).2 hmapped hreducing hnot

/-- Witness for C18 on `lastMapRunning`, reached from the fresh `freshOneTwo`
by one registration: the only map task is assigned and not completed and the
timeout flag is `false`; a second registration is answered with Waiting and
sets the flag. -/
theorem Dispatch_poll_timeout_toggle_witness :
    Reachable lastMapRunning ∧ AllTrue lastMapRunning.MappingFiles ∧
    ¬ AllTrue lastMapRunning.MappedFiles ∧
    Dispatch lastMapRunning { Phase := regPhase, FileIndex := -1 } Response.zero =
      some ({ lastMapRunning with Timeout := true },
            { Response.zero with Phase := waitPhase, FileIndex := "-1", FileName := "",
                                 NReduce := -1 }, none) :=
  have hreach : Reachable lastMapRunning :=
    Reachable.step freshOneTwo lastMapRunning { Phase := regPhase, FileIndex := -1 }
      Response.zero
      { Phase := mapPhase, FileName := "a", FileIndex := "0", NReduce := 2, NFile := 1 } none
      (Reachable.make ["a"] 2 freshOneTwo (by rfl)) (by rfl)
  have hall : AllTrue lastMapRunning.MappingFiles := by
    intro b hb
    simpa [lastMapRunning] using hb
  have hnot : ¬ AllTrue lastMapRunning.MappedFiles := by
    intro h
    exact absurd (h false (by simp [lastMapRunning])) (by decide)
  have h := (Dispatch_poll_timeout_toggle lastMapRunning
    { Phase := regPhase, FileIndex := -1 } Response.zero (Or.inl hreach) (Or.inl rfl)).1
      hall hnot
  ⟨hreach, hall, hnot, h.elim fun _ hi => hi.2.1 rfl⟩

/-! ## The file operations of a map or reduce attempt -/

theorem mem_createLoop_mem (env : WorkerEnv) (index : Int) (l : List Nat) (op : FsOp)
    (h : op ∈ (createLoop env index l).1) :
    ∃ b ∈ l, op = FsOp.create (intermediateName index b) := by
  induction l with
  | nil => simp [createLoop] at h
  | cons i is ih =>
    by_cases hc : env.createOk (intermediateName index i) = true
    · simp only [createLoop, hc, if_true, List.mem_cons] at h
      rcases h with h | h
      · exact ⟨i, List.mem_cons_self _ _, h⟩
      · obtain ⟨b, hb, hop⟩ := ih h
        exact ⟨b, List.mem_cons_of_mem _ hb, hop⟩
    · simp [createLoop, hc] at h

theorem createLoop_all_ok (env : WorkerEnv) (hc : ∀ name, env.createOk name = true)
    (index : Int) (l : List Nat) :
    createLoop env index l =
      (l.map fun i : Nat => FsOp.create (intermediateName index i), true) := by
  induction l with
  | nil => rfl
  | cons i is ih => simp [createLoop, hc, ih]

theorem bucketOf_eq_some {key : String} {nReduce : Int} {b : Nat}
    (h : bucketOf key nReduce = some b) :
    (b : Int) = Int.tmod (ihash key) nReduce ∧ (b : Int) < nReduce := by
  unfold bucketOf at h
  by_cases h0 : nReduce = 0
  · simp [h0] at h
  · by_cases h1 : 0 ≤ Int.tmod (ihash key) nReduce ∧ Int.tmod (ihash key) nReduce < nReduce
    · simp only [h0, if_false, h1, and_self, if_true, Option.some.injEq] at h
      rw [← h, Int.toNat_of_nonneg h1.1]
      exact ⟨rfl, h1.2⟩
    · simp [h0, h1] at h

theorem encodeLoop_bucket (nReduce : Int) :
    ∀ (fuel : Nat) (l : List KeyValue) (records : List (Nat × KeyValue)),
      encodeLoop nReduce fuel l = some records →
      ∀ r ∈ records, bucketOf r.2.Key nReduce = some r.1 := by
  intro fuel
  induction fuel with
  | zero =>
    intro l records h r hr
    simp only [encodeLoop, Option.some.injEq] at h
    rw [← h] at hr
    simp at hr
  | succ fuel ih =>
    intro l records h r hr
    cases l with
    | nil =>
      simp only [encodeLoop, Option.some.injEq] at h
      rw [← h] at hr
      simp at hr
    | cons kv rest =>
      simp only [encodeLoop] at h
      obtain ⟨b, hb, h⟩ := Option.bind_eq_some.1 h
      obtain ⟨more, hmore, h⟩ := Option.map_eq_some'.1 h
      rw [← h] at hr
      rcases List.mem_append.1 hr with hr | hr
      · obtain ⟨_, -, rfl⟩ := List.mem_map.1 hr
        exact hb
      · exact ih _ _ hmore r hr

theorem readIntermediate_all_open (env : WorkerEnv) (index : Int) (files : Nat → List KeyValue)
    (l : List Nat)
    (h : ∀ i ∈ l, env.openIntermediate (intermediateName i index) = some (files i)) :
    readIntermediate env index l = l.flatMap files := by
  induction l with
  | nil => rfl
  | cons i is ih =>
    have hi := h i (List.mem_cons_self _ _)
    have his := ih fun j hj => h j (List.mem_cons_of_mem _ hj)
    simp [readIntermediate, hi, his, List.flatMap_cons]

/-- The map attempt once the input is read and the encode loop returns: the
creations, then (if all of them succeeded) the records whose `Encode`
succeeded and the completion report. -/
theorem mapAttempt_of_records (env : WorkerEnv) (response : Response) (content : String)
    (records : List (Nat × KeyValue))
    (hread : env.readInput response.FileName = some content)
    (hneg : ¬ response.NReduce < 0)
    (hrecords : mapRecords (env.sortByKey (env.mapf response.FileName content))
      response.NReduce = some records) :
    mapAttempt env response =
      if (createLoop env (Atoi response.FileIndex) (List.range response.NReduce.toNat)).2 = true
      then
        { ops := (createLoop env (Atoi response.FileIndex)
              (List.range response.NReduce.toNat)).1 ++
            records.filterMap fun r =>
              if env.encodeOk (intermediateName (Atoi response.FileIndex) r.1) r.2 then
                some (FsOp.encode (intermediateName (Atoi response.FileIndex) r.1) r.2)
              else none,
          action := Action.send { Phase := mapPhase, FileIndex := Atoi response.FileIndex } }
      else
        { ops := (createLoop env (Atoi response.FileIndex)
            (List.range response.NReduce.toNat)).1,
          action := Action.stop } := by
  unfold mapAttempt
  simp only [hread, hneg, if_false, List.nil_append, hrecords]
  cases (createLoop env (Atoi response.FileIndex) (List.range response.NReduce.toNat)).2 <;>
    simp

/-- Every file operation of a map attempt is a creation of, or an `Encode`
into, an intermediate file of that task with a bucket below `NReduce`. -/
theorem mapAttempt_ops (env : WorkerEnv) (response : Response) (op : FsOp)
    (h : op ∈ (mapAttempt env response).ops) :
    (∃ b : Nat, (b : Int) < response.NReduce ∧
        op = FsOp.create (intermediateName (Atoi response.FileIndex) b)) ∨
    (∃ (content : String) (records : List (Nat × KeyValue)) (r : Nat × KeyValue),
        env.readInput response.FileName = some content ∧
        mapRecords (env.sortByKey (env.mapf response.FileName content)) response.NReduce =
          some records ∧
        r ∈ records ∧ (createLoop env (Atoi response.FileIndex)
          (List.range response.NReduce.toNat)).2 = true ∧
        env.encodeOk (intermediateName (Atoi response.FileIndex) r.1) r.2 = true ∧
        op = FsOp.encode (intermediateName (Atoi response.FileIndex) r.1) r.2) := by
  have hcreate : ∀ op', op' ∈ (createLoop env (Atoi response.FileIndex)
      (List.range response.NReduce.toNat)).1 → ¬ response.NReduce < 0 →
      ∃ b : Nat, (b : Int) < response.NReduce ∧
        op' = FsOp.create (intermediateName (Atoi response.FileIndex) b) := by
    intro op' hop hneg
    obtain ⟨b, hb, hop⟩ := mem_createLoop_mem _ _ _ _ hop
    have hb' : b < response.NReduce.toNat := List.mem_range.1 hb
    exact ⟨b, by omega, hop⟩
  cases hread : env.readInput response.FileName with
  | none =>
    unfold mapAttempt at h
    simp [hread] at h
  | some content =>
    by_cases hneg : response.NReduce < 0
    · unfold mapAttempt at h
      simp [hread, hneg] at h
    · cases hrec : mapRecords (env.sortByKey (env.mapf response.FileName content))
          response.NReduce with
      | none =>
        unfold mapAttempt at h
        simp only [hread, hneg, if_false, List.nil_append, hrec] at h
        left
        apply hcreate op _ hneg
        split_ifs at h <;> exact h
      | some records =>
        rw [mapAttempt_of_records env response content records hread hneg hrec] at h
        split_ifs at h with hok
        · rcases List.mem_append.1 h with h | h
          · exact Or.inl (hcreate op h hneg)
          · obtain ⟨r, hr, hop⟩ := List.mem_filterMap.1 h
            split_ifs at hop with henc
            exact Or.inr ⟨content, records, r, rfl, hrec, hr, hok, henc,
              (Option.some.inj hop).symm⟩
        · exact Or.inl (hcreate op h hneg)

theorem workerStep_of_map (env : WorkerEnv) (response : Response)
    (hp : response.Phase = mapPhase) : workerStep env response = mapAttempt env response := by
  unfold workerStep
  rw [if_pos hp]

theorem workerStep_of_reduce (env : WorkerEnv) (response : Response)
    (hp : response.Phase = reducePhase) :
    workerStep env response = reduceAttempt env response := by
  have hne : ¬ response.Phase = mapPhase := by rw [hp]; decide
  unfold workerStep
  rw [if_neg hne, if_pos hp]

theorem reduceAttempt_of_create (env : WorkerEnv) (response : Response)
    (hcreate : env.createOk (outputName (Atoi response.FileIndex)) = true) :
    reduceAttempt env response =
      { ops := FsOp.create (outputName (Atoi response.FileIndex)) ::
          (reduceLines env.reducef (env.sortByKey (readIntermediate env
            (Atoi response.FileIndex) (List.range response.NFile.toNat)))).map
            (FsOp.print (outputName (Atoi response.FileIndex))),
        action := Action.send { Phase := reducePhase, FileIndex := Atoi response.FileIndex } } := by
  unfold reduceAttempt
  simp [hcreate]

theorem reduceAttempt_of_create_failure (env : WorkerEnv) (response : Response)
    (hcreate : env.createOk (outputName (Atoi response.FileIndex)) = false) :
    reduceAttempt env response = { ops := [], action := Action.again } := by
  unfold reduceAttempt
  simp [hcreate]

/-! ## Claims on what a map or reduce attempt writes -/

theorem filterMap_some_eq_map {α β : Type} (f : α → β) (l : List α) :
    l.filterMap (fun x => some (f x)) = l.map f := by
  induction l with
  | nil => rfl
  | cons a as ih => simp [List.filterMap_cons, ih]

/-- Claim C13, as stated, fails: when `os.Create` fails, the map attempt for
task 0 returns at once; the keys "a" and "b" occur in the list the map
function returned, yet no record is written to any bucket. -/
theorem workerStep_map_create_failure_counterexample :
    createFailEnv.readInput mapZero.FileName = some "a b" ∧
    createFailEnv.mapf mapZero.FileName "a b" =
      [{ Key := "a", Value := "1" }, { Key := "b", Value := "1" }] ∧
    createFailEnv.createOk (intermediateName 0 0) = false ∧
    workerStep createFailEnv mapZero = { ops := [], action := Action.stop } := by
  refine ⟨by rfl, by rfl, by rfl, by rfl⟩

/-- Claim C13 (amended): for a Map assignment with `NReduce >= 1` whose input
is read, with `kva` the list the map function returns: every record the
attempt writes goes to the intermediate file of bucket `ihash(k) % NReduce`
of its key `k`, and `k` is a key of `kva`; hence two records with the same
key are in the same file and no key is split across buckets.  If moreover
every `os.Create` and every `Encode` of the attempt succeeds, every key
occurring in `kva` occurs in a record written to the created file of bucket
`ihash(k) % NReduce`. -/
theorem workerStep_map_keys_in_hash_bucket (env : WorkerEnv) (response : Response)
    (content : String) (kva : List KeyValue) (index : Int)
    (hp : response.Phase = mapPhase) (_hidx : IndexFitsInt response)
    (hindex : Atoi response.FileIndex = index) (hn : 1 ≤ response.NReduce)
    (hread : env.readInput response.FileName = some content)
    (hkva : env.mapf response.FileName content = kva)
    (hperm : (env.sortByKey kva).Perm kva) :
    (∀ name record, FsOp.encode name record ∈ (workerStep env response).ops →
      name = intermediateName index (Int.tmod (ihash record.Key) response.NReduce) ∧
      record.Key ∈ kva.map fun x => x.Key) ∧
    (∀ name name' record record',
      FsOp.encode name record ∈ (workerStep env response).ops →
      FsOp.encode name' record' ∈ (workerStep env response).ops →
      record.Key = record'.Key → name = name') ∧
    ((∀ name, env.createOk name = true) → (∀ name record, env.encodeOk name record = true) →
      ∀ x ∈ kva, ∃ record, record.Key = x.Key ∧
        FsOp.create (intermediateName index (Int.tmod (ihash x.Key) response.NReduce)) ∈
          (workerStep env response).ops ∧
        FsOp.encode (intermediateName index (Int.tmod (ihash x.Key) response.NReduce)) record ∈
          (workerStep env response).ops) := by
  subst hindex hkva
  obtain ⟨records, hrec, hwritten, hall, -, -⟩ :=
    mapRecords_keys_in_hash_bucket (env.mapf response.FileName content)
      (env.sortByKey (env.mapf response.FileName content)) response.NReduce hn hperm
  have hneg : ¬ response.NReduce < 0 := by omega
  have hstep := workerStep_of_map env response hp
  have hfirst : ∀ name record, FsOp.encode name record ∈ (workerStep env response).ops →
      name = intermediateName (Atoi response.FileIndex)
        (Int.tmod (ihash record.Key) response.NReduce) ∧
      record.Key ∈ (env.mapf response.FileName content).map fun x => x.Key := by
    intro name record hop
    rw [hstep] at hop
    rcases mapAttempt_ops env response _ hop with ⟨b, -, hb⟩ | ⟨c, rs, r, hc, hrs, hr, -, -, hb⟩
    · exact absurd hb (by simp)
    · rw [hread] at hc
      have hcc : content = c := Option.some.inj hc
      subst hcc
      rw [hrec] at hrs
      have hrr : records = rs := Option.some.inj hrs
      subst hrr
      simp only [FsOp.encode.injEq] at hb
      obtain ⟨rfl, rfl⟩ := hb
      obtain ⟨h1, h2⟩ := hwritten r hr
      exact ⟨by rw [h1], h2⟩
  refine ⟨hfirst, ?_, ?_⟩
  · intro name name' record record' h1 h2 hk
    rw [(hfirst name record h1).1, (hfirst name' record' h2).1, hk]
  · intro hcreate hencode x hx
    obtain ⟨r, hr, hk, hb⟩ := hall x hx
    have hops : (workerStep env response).ops =
        (List.range response.NReduce.toNat).map
            (fun i : Nat => FsOp.create (intermediateName (Atoi response.FileIndex) i)) ++
          records.map fun r => FsOp.encode (intermediateName (Atoi response.FileIndex) r.1) r.2 := by
      rw [hstep, mapAttempt_of_records env response content records hread hneg hrec,
        createLoop_all_ok env hcreate]
      simp only [hencode, if_true, filterMap_some_eq_map]
    have hlt : (r.1 : Int) < response.NReduce := by
      rw [hb]
      exact Int.tmod_lt_of_pos _ (by omega)
    have hlt' : r.1 < response.NReduce.toNat := by omega
    refine ⟨r.2, hk, ?_, ?_⟩
    · rw [hops, ← hb]
      apply List.mem_append_left
      exact List.mem_map_of_mem
        (fun i : Nat => FsOp.create (intermediateName (Atoi response.FileIndex) i))
        (List.mem_range.2 hlt')
    · rw [hops, ← hb]
      apply List.mem_append_right
      exact List.mem_map_of_mem
        (fun r : Nat × KeyValue =>
          FsOp.encode (intermediateName (Atoi response.FileIndex) r.1) r.2) hr

/-- Witness for C13 (amended): the sample map attempt for task 0 with one
bucket writes a record with key "a" into `mr-0-0`. -/
theorem workerStep_map_keys_in_hash_bucket_witness :
    FsOp.encode "mr-0-0" { Key := "a", Value := "1" } ∈ (workerStep sampleEnv mapZero).ops ∧
    "mr-0-0" = intermediateName 0 (Int.tmod (ihash "a") 1) :=
  have hmem : FsOp.encode "mr-0-0" { Key := "a", Value := "1" } ∈
      (workerStep sampleEnv mapZero).ops := by
    have h : (workerStep sampleEnv mapZero).ops =
        [FsOp.create "mr-0-0", FsOp.encode "mr-0-0" { Key := "a", Value := "1" },
         FsOp.encode "mr-0-0" { Key := "b", Value := "1" }] := by rfl
    rw [h]
    simp
  have hfits : IndexFitsInt mapZero := by
    have h0 : Atoi mapZero.FileIndex = 0 := by rfl
    unfold IndexFitsInt
    rw [h0]
    constructor <;> norm_num
  ⟨hmem,
   ((workerStep_map_keys_in_hash_bucket sampleEnv mapZero "a b"
      [{ Key := "a", Value := "1" }, { Key := "b", Value := "1" }] 0 rfl hfits (by rfl)
      (by decide) (by rfl) (by rfl) (List.Perm.refl _)).1 _ _ hmem).1⟩

/-- Claim C14, as stated, fails: when `os.Create` of the output file fails,
the reduce attempt for task 0 leaves the `switch` before the grouping loop;
the record `("a", "1")` was decoded, yet the reduce function is called for
no key and no line is written. -/
theorem workerStep_reduce_create_failure_counterexample :
    readIntermediate createFailEnv (Atoi reduceZero.FileIndex)
        (List.range reduceZero.NFile.toNat) = [{ Key := "a", Value := "1" }] ∧
    createFailEnv.createOk (outputName 0) = false ∧
    workerStep createFailEnv reduceZero = { ops := [], action := Action.again } := by
  refine ⟨by rfl, by rfl, by rfl⟩

/-- Claim C14 (amended): for a Reduce assignment whose output file is created
(`os.Create` succeeds), with `kva` the list of pairs the attempt decoded
(all records of the `NFile` intermediate files when every one opens) and the
sort leaving a key-sorted permutation of it: the attempt creates the output
file and then, for a list of calls of the reduce function with exactly one
call per distinct key of `kva`, in strictly ascending key order, each with a
permutation of all values paired with that key in `kva`, prints the line
"key result" of each call, in that order, and sends the completion report. -/
theorem workerStep_reduce_once_per_key (env : WorkerEnv) (response : Response)
    (kva : List KeyValue) (index : Int)
    (hp : response.Phase = reducePhase) (_hidx : IndexFitsInt response)
    (hindex : Atoi response.FileIndex = index)
    (hkva : readIntermediate env index (List.range response.NFile.toNat) = kva)
    (hcreate : env.createOk (outputName index) = true)
    (hperm : (env.sortByKey kva).Perm kva) (hsorted : SortedByKey (env.sortByKey kva)) :
    ∃ calls : List (String × List String),
      workerStep env response =
        { ops := FsOp.create (outputName index) ::
            calls.map fun c =>
              FsOp.print (outputName index) (c.1 ++ " " ++ env.reducef c.1 c.2 ++ "\n"),
          action := Action.send { Phase := reducePhase, FileIndex := index } } ∧
      (calls.map fun c => c.1).Pairwise (fun a b => a < b) ∧
      (∀ k, k ∈ calls.map (fun c => c.1) ↔ k ∈ kva.map fun x => x.Key) ∧
      (∀ c ∈ calls, c.2.Perm ((kva.filter fun x => x.Key == c.1).map fun x => x.Value)) ∧
      (∀ files : Nat → List KeyValue,
        (∀ i, i < response.NFile.toNat →
          env.openIntermediate (intermediateName i index) = some (files i)) →
        kva = (List.range response.NFile.toNat).flatMap files) := by
  subst hindex hkva
  obtain ⟨h1, h2, h3, -⟩ := reduceCalls_once_per_key _ _ env.reducef hperm hsorted
  refine ⟨reduceCalls (env.sortByKey (readIntermediate env (Atoi response.FileIndex)
    (List.range response.NFile.toNat))), ?_, h1, h2, h3, ?_⟩
  · rw [workerStep_of_reduce env response hp, reduceAttempt_of_create env response hcreate]
    simp [reduceLines, List.map_map, Function.comp_def]
  · intro files hfiles
    exact readIntermediate_all_open env _ files _ fun i hi => hfiles i (List.mem_range.1 hi)

/-- Witness for C14 (amended): with `mr-0-0` holding `("a", "1")` and the
output file created, the reduce attempt for task 0 creates `mr-out-0` and
prints the line "a 1". -/
theorem workerStep_reduce_once_per_key_witness :
    ∃ calls : List (String × List String),
      workerStep { createFailEnv with createOk := fun _ => true } reduceZero =
        { ops := FsOp.create (outputName 0) ::
            calls.map fun c =>
              FsOp.print (outputName 0) (c.1 ++ " " ++ Nat.repr c.2.length ++ "\n"),
          action := Action.send { Phase := reducePhase, FileIndex := 0 } } ∧
      calls.map (fun c => c.1) = ["a"] :=
  have hfits : IndexFitsInt reduceZero := by
    have h0 : Atoi reduceZero.FileIndex = 0 := by rfl
    unfold IndexFitsInt
    rw [h0]
    constructor <;> norm_num
  have h := workerStep_reduce_once_per_key { createFailEnv with createOk := fun _ => true }
    reduceZero [{ Key := "a", Value := "1" }] 0 rfl hfits (by rfl) (by rfl) (by rfl)
    (List.Perm.refl _)
    (by
      show SortedByKey [{ Key := "a", Value := "1" }]
      simp [SortedByKey])
  h.elim fun calls hc => ⟨calls, hc.1, by
    have hk := hc.2.2.1
    have hp := hc.2.1
    cases hcalls : calls.map (fun c => c.1) with
    | nil =>
      have := (hk "a").2 (by simp)
      rw [hcalls] at this
      simp at this
    | cons k ks =>
      rw [hcalls] at hk hp
      have hka : k = "a" := by
        have := (hk k).1 (List.mem_cons_self _ _)
        simpa using this
      subst hka
      cases ks with
      | nil => rfl
      | cons k' ks' =>
        have hk' : k' = "a" := by
          have := (hk k').1 (by simp)
          simpa using this
        subst hk'
        have := (List.pairwise_cons.1 hp).1 "a" (List.mem_cons_self _ _)
        exact absurd this (lt_irrefl _)⟩

/-- Claim C16 (amended): every file operation of a Map or Reduce attempt is
made directly under a final name, and no attempt renames a file.  A map
attempt for task `index` only creates intermediate files `mr-<index>-<bucket>`
with `bucket < NReduce` and encodes records into them; when its input is read
and every `os.Create` and `Encode` succeeds it creates all `NReduce` of them,
in order, and then encodes every record of the encode loop (one for each
element of the sorted list) into the created file of its bucket.  A reduce
attempt for task `index` only creates `mr-out-<index>` and prints lines into
it; when that `os.Create` succeeds it creates the file and then prints every
output line into it.  A pass that is neither does no file operation. -/
theorem workerStep_ops_final_names (env : WorkerEnv) (response : Response) (index : Int)
    (_hidx : IndexFitsInt response) (hindex : Atoi response.FileIndex = index) :
    (∀ op ∈ (workerStep env response).ops, ∀ old new, op ≠ FsOp.rename old new) ∧
    (response.Phase = mapPhase →
      (∀ op ∈ (workerStep env response).ops, ∃ b : Nat, (b : Int) < response.NReduce ∧
        (op = FsOp.create (intermediateName index b) ∨
          ∃ record, op = FsOp.encode (intermediateName index b) record)) ∧
      (∀ content, env.readInput response.FileName = some content → 1 ≤ response.NReduce →
        (∀ name, env.createOk name = true) →
        (∀ name record, env.encodeOk name record = true) →
        ∃ records,
          mapRecords (env.sortByKey (env.mapf response.FileName content)) response.NReduce =
            some records ∧
          records.length = (env.sortByKey (env.mapf response.FileName content)).length ∧
          (workerStep env response).ops =
            (List.range response.NReduce.toNat).map
                (fun b : Nat => FsOp.create (intermediateName index b)) ++
              records.map fun r => FsOp.encode (intermediateName index r.1) r.2)) ∧
    (response.Phase = reducePhase →
      (∀ op ∈ (workerStep env response).ops,
        op = FsOp.create (outputName index) ∨ ∃ line, op = FsOp.print (outputName index) line) ∧
      (env.createOk (outputName index) = true →
        (workerStep env response).ops =
          FsOp.create (outputName index) ::
            (reduceLines env.reducef (env.sortByKey
              (readIntermediate env index (List.range response.NFile.toNat)))).map
              (FsOp.print (outputName index)))) ∧
    (response.Phase ≠ mapPhase → response.Phase ≠ reducePhase →
      (workerStep env response).ops = []) := by
  subst hindex
  have hmap : response.Phase = mapPhase →
      ∀ op ∈ (workerStep env response).ops, ∃ b : Nat, (b : Int) < response.NReduce ∧
        (op = FsOp.create (intermediateName (Atoi response.FileIndex) b) ∨
          ∃ record, op = FsOp.encode (intermediateName (Atoi response.FileIndex) b) record) := by
    intro hp op hop
    rw [workerStep_of_map env response hp] at hop
    rcases mapAttempt_ops env response op hop with ⟨b, hb, hop⟩ |
      ⟨c, rs, r, -, hrs, hr, -, -, hop⟩
    · exact ⟨b, hb, Or.inl hop⟩
    · have hbucket := encodeLoop_bucket response.NReduce _ _ rs hrs r hr
      exact ⟨r.1, (bucketOf_eq_some hbucket).2, Or.inr ⟨r.2, hop⟩⟩
  have hreduce : response.Phase = reducePhase →
      ∀ op ∈ (workerStep env response).ops,
        op = FsOp.create (outputName (Atoi response.FileIndex)) ∨
        ∃ line, op = FsOp.print (outputName (Atoi response.FileIndex)) line := by
    intro hp op hop
    rw [workerStep_of_reduce env response hp] at hop
    cases hc : env.createOk (outputName (Atoi response.FileIndex)) with
    | false =>
      rw [reduceAttempt_of_create_failure env response hc] at hop
      simp at hop
    | true =>
      rw [reduceAttempt_of_create env response hc] at hop
      simp only [List.mem_cons, List.mem_map] at hop
      rcases hop with hop | ⟨line, -, hl⟩
      · exact Or.inl hop
      · exact Or.inr ⟨line, hl.symm⟩
  have hother : response.Phase ≠ mapPhase → response.Phase ≠ reducePhase →
      (workerStep env response).ops = [] := by
    intro h1 h2
    unfold workerStep
    rw [if_neg h1, if_neg h2]
    split_ifs <;> rfl
  refine ⟨?_, fun hp => ⟨hmap hp, ?_⟩, fun hp => ⟨hreduce hp, ?_⟩, hother⟩
  · intro op hop old new heq
    subst heq
    by_cases h1 : response.Phase = mapPhase
    · obtain ⟨b, -, hb | ⟨record, hb⟩⟩ := hmap h1 _ hop <;> exact absurd hb (by simp)
    · by_cases h2 : response.Phase = reducePhase
      · rcases hreduce h2 _ hop with hb | ⟨line, hb⟩ <;> exact absurd hb (by simp)
      · rw [hother h1 h2] at hop
        simp at hop
  · intro content hread hn hcreate hencode
    obtain ⟨records, hrec, hkeys, -⟩ := encodeLoop_keys response.NReduce hn
      (env.sortByKey (env.mapf response.FileName content)).length
      (env.sortByKey (env.mapf response.FileName content)) le_rfl
    have hneg : ¬ response.NReduce < 0 := by omega
    refine ⟨records, hrec, ?_, ?_⟩
    · have := congrArg List.length hkeys
      simpa using this
    · rw [workerStep_of_map env response hp,
        mapAttempt_of_records env response content records hread hneg hrec,
        createLoop_all_ok env hcreate]
      simp only [hencode, if_true, filterMap_some_eq_map]
  · intro hcreate
    rw [workerStep_of_reduce env response hp, reduceAttempt_of_create env response hcreate]

/-- Witness for C16 (amended): the sample map attempt for task 0 creates
`mr-0-0` and encodes both records into it; no operation is a rename. -/
theorem workerStep_ops_final_names_witness :
    IndexFitsInt mapZero ∧ Atoi mapZero.FileIndex = 0 ∧
    FsOp.create "mr-0-0" ∈ (workerStep sampleEnv mapZero).ops ∧
    (∀ old new, FsOp.create "mr-0-0" ≠ FsOp.rename old new) ∧
    ∃ records : List (Nat × KeyValue),
      (workerStep sampleEnv mapZero).ops =
        (List.range mapZero.NReduce.toNat).map
            (fun b : Nat => FsOp.create (intermediateName 0 b)) ++
          records.map fun r => FsOp.encode (intermediateName 0 r.1) r.2 :=
  have hfits : IndexFitsInt mapZero := by
    have h0 : Atoi mapZero.FileIndex = 0 := by rfl
    unfold IndexFitsInt
    rw [h0]
    constructor <;> norm_num
  have hmem : FsOp.create "mr-0-0" ∈ (workerStep sampleEnv mapZero).ops := by
    have h : (workerStep sampleEnv mapZero).ops =
        [FsOp.create "mr-0-0", FsOp.encode "mr-0-0" { Key := "a", Value := "1" },
         FsOp.encode "mr-0-0" { Key := "b", Value := "1" }] := by rfl
    rw [h]
    exact List.mem_cons_self _ _
  have h := workerStep_ops_final_names sampleEnv mapZero 0 hfits (by rfl)
  ⟨hfits, by rfl, hmem, h.1 _ hmem,
   ((h.2.1 rfl).2 "a b" (by rfl) (by decide) (fun _ => rfl) (fun _ _ => rfl)).elim
     fun records hr => ⟨records, hr.2.2⟩⟩

end MR
